import Mathlib

/-!
Verification of the pluggable ordered key-value storage layer of the
`kore-node` repository: the two backend implementations
(`src/database/leveldb.rs` — an ordered flat-keyspace store, and
`src/database/sqlite.rs` — a relational-table-emulated store) of the
`DatabaseCollection` / `DatabaseManager` contract.

Keys are modelled as lists of characters.  Rust compares `&str` values by
their UTF-8 bytes, and byte order of UTF-8 encodings coincides with
code-point order, so lexicographic order on `List Char` (by code point) is a
faithful model of the ordering both backends rely on.  Values are opaque
byte sequences, modelled as `List Nat`.
-/

namespace KoreNode

open scoped List

/-- A key (or key fragment / iteration target), i.e. a Rust string. -/
abbrev Str := List Char

/-- An opaque value: a byte sequence (`Vec<u8>`). -/
abbrev Val := List Nat

/-- Strict byte-lexicographic order on keys — the order in which LevelDB
stores keys and in which SQLite's `ORDER BY id ASC` (binary collation on
TEXT) returns rows. -/
def ltb : Str → Str → Bool
  | [], [] => false
  | [], _ :: _ => true
  | _ :: _, [] => false
  | a :: as, b :: bs => if a < b then true else if b < a then false else ltb as bs

/-- `char::MAX` (U+10FFFF): the reserved separator / sentinel character. -/
def maxChar : Char := Char.ofNat 0x10FFFF

/-- The sentinel used by `LeveldbCollection::iter` for reverse scans:
`format!("{}{}{}", prefix, char::MAX, char::MAX)`. -/
def sentinel (pfx : Str) : Str := pfx ++ [maxChar, maxChar]

/-- Rust `String::replace(pat, "")`: delete the leftmost non-overlapping
occurrences of `pat`, scanning left to right; the empty pattern leaves the
string unchanged.  Used by both LevelDB iterators to strip the iteration
target from yielded keys (`value.replace(&self.table_name, "")`).
`removeOccGo` carries fuel to make the recursion structural; every step
shortens the string, so `s.length` fuel always suffices. -/
def removeOccGo (pat : Str) : Str → Nat → Str
  | s, 0 => s
  | [], _ + 1 => []
  | c :: rest, fuel + 1 =>
    if pat.isPrefixOf (c :: rest) then removeOccGo pat ((c :: rest).drop pat.length) fuel
    else c :: removeOccGo pat rest fuel

def removeOcc (pat : Str) (s : Str) : Str :=
  if pat = [] then s else removeOccGo pat s s.length

/-- The suffix of `s` that begins with the rightmost occurrence of
`maxChar`, or `none` when the separator does not occur. -/
def suffixFromLastSep : Str → Option Str
  | [] => none
  | c :: rest =>
    match suffixFromLastSep rest with
    | some t => some t
    | none => if c = maxChar then some (c :: rest) else none

/-- `key[key.rfind(char::MAX).unwrap_or(0)..key.len()]` from
`SqliteCollection::make_iter`: the slice starting AT the rightmost
occurrence of the separator (byte index of its first byte), or the whole
key when the separator is absent.  Note the separator itself is the first
character of the result. -/
def cutAtLastSep (s : Str) : Str := (suffixFromLastSep s).getD s

/-- `kore_base::DbError`, the error type of the storage contract. -/
inductive DbError where
  | EntryNotFound : DbError
  | SerializeError : DbError
  | CustomError : String → DbError
deriving DecidableEq, Repr

/-! ### Order lemmas for `ltb` -/

theorem ltb_irrefl (s : Str) : ltb s s = false := by
  induction s with
  | nil => rfl
  | cons c rest ih => simp [ltb, ih]

theorem ltb_asymm {a b : Str} (h : ltb a b = true) : ltb b a = false := by
  induction a generalizing b with
  | nil =>
    cases b with
    | nil => simp [ltb] at h
    | cons x xs => rfl
  | cons c rest ih =>
    cases b with
    | nil => simp [ltb] at h
    | cons x xs =>
      simp only [ltb] at h ⊢
      rcases lt_trichotomy c x with hlt | heq | hgt
      · simp [hlt, not_lt_of_lt hlt]
      · subst heq
        simp only [lt_irrefl, if_false] at h ⊢
        exact ih h
      · simp [hgt, not_lt_of_lt hgt] at h

theorem ltb_total (a b : Str) : ltb a b = true ∨ ltb b a = true ∨ a = b := by
  induction a generalizing b with
  | nil =>
    cases b with
    | nil => right; right; rfl
    | cons x xs => left; rfl
  | cons c rest ih =>
    cases b with
    | nil => right; left; rfl
    | cons x xs =>
      rcases lt_trichotomy c x with hlt | heq | hgt
      · left; simp [ltb, hlt]
      · subst heq
        rcases ih xs with h | h | h
        · left; simp [ltb, h]
        · right; left; simp [ltb, h]
        · right; right; rw [h]
      · right; left; simp [ltb, hgt]

theorem ltb_trans {a b c : Str} (h1 : ltb a b = true) (h2 : ltb b c = true) :
    ltb a c = true := by
  induction a generalizing b c with
  | nil =>
    cases c with
    | nil =>
      cases b with
      | nil => exact h1
      | cons y ys => simp [ltb] at h2
    | cons z zs => rfl
  | cons x xs ih =>
    cases b with
    | nil => simp [ltb] at h1
    | cons y ys =>
      cases c with
      | nil => simp [ltb] at h2
      | cons z zs =>
        simp only [ltb] at h1 h2 ⊢
        rcases lt_trichotomy x y with hxy | hxy | hxy
        · rcases lt_trichotomy y z with hyz | hyz | hyz
          · simp [lt_trans hxy hyz, not_lt_of_lt (lt_trans hxy hyz)]
          · subst hyz; simp [hxy, not_lt_of_lt hxy]
          · simp [hyz, not_lt_of_lt hyz] at h2
        · subst hxy
          rcases lt_trichotomy x z with hyz | hyz | hyz
          · simp [hyz, not_lt_of_lt hyz]
          · subst hyz
            simp only [lt_irrefl, if_false] at h1 h2 ⊢
            exact ih h1 h2
          · simp [hyz, not_lt_of_lt hyz] at h2
        · simp [hxy, not_lt_of_lt hxy] at h1

theorem ltb_of_ne_of_not_ltb {a b : Str} (hne : a ≠ b) (h : ltb a b = false) :
    ltb b a = true := by
  rcases ltb_total a b with h1 | h1 | h1
  · rw [h1] at h; exact absurd h (by simp)
  · exact h1
  · exact absurd h1 hne

/-- A string is `≥` (not `ltb`-below) any of its prefixes. -/
theorem not_ltb_of_isPrefixOf {p s : Str} (h : p.isPrefixOf s) :
    ltb s p = false := by
  induction p generalizing s with
  | nil => cases s <;> rfl
  | cons c rest ih =>
    cases s with
    | nil => simp [List.isPrefixOf] at h
    | cons x xs =>
      simp only [List.isPrefixOf, Bool.and_eq_true, beq_iff_eq] at h
      obtain ⟨rfl, h2⟩ := h
      simp [ltb, ih h2]

/-- Strings lexicographically between a string `p` and a string having `p`
as a prefix themselves have `p` as a prefix. -/
theorem isPrefixOf_of_between {p a b : Str} (hpa : ltb a p = false)
    (hab : ltb b a = false) (hpb : p.isPrefixOf b) : p.isPrefixOf a := by
  induction p generalizing a b with
  | nil => simp [List.isPrefixOf]
  | cons c rest ih =>
    cases b with
    | nil => simp [List.isPrefixOf] at hpb
    | cons y ys =>
      simp only [List.isPrefixOf, Bool.and_eq_true, beq_iff_eq] at hpb
      obtain ⟨rfl, hpb2⟩ := hpb
      cases a with
      | nil => simp [ltb] at hpa
      | cons x xs =>
        simp only [ltb] at hpa hab
        rcases lt_trichotomy x c with hxc | hxc | hxc
        · simp [hxc] at hpa
        · subst hxc
          simp only [lt_irrefl, if_false] at hpa hab
          simp only [List.isPrefixOf, Bool.and_eq_true, beq_iff_eq]
          exact ⟨trivial, ih hpa hab hpb2⟩
        · simp [hxc, not_lt_of_lt hxc] at hab

/-! ## Backend A — LevelDB (`src/database/leveldb.rs`)

The external `leveldb` crate is modelled from the spec (§2, §4.2): an
"ordered flat-keyspace store" with a native sorted cursor supporting seek.
The physical database is represented by its list of entries in strictly
ascending key order; a cursor is a position into that snapshot together
with the crate's `start` flag (the first advance after construction does
not move the cursor, it only consumes the flag). -/

/-- The shared physical LevelDB database: entries in ascending key order. -/
abbrev LDB := List (Str × Val)

/-- Raw store write (`Database::put`): insert keeping ascending key order,
replacing the entry when the key is already present (last write wins). -/
def ldbPutRaw (db : LDB) (k : Str) (v : Val) : LDB :=
  match db with
  | [] => [(k, v)]
  | (k0, v0) :: rest =>
    if ltb k k0 then (k, v) :: (k0, v0) :: rest
    else if k = k0 then (k, v) :: rest
    else (k0, v0) :: ldbPutRaw rest k v

/-- Raw store delete (`Database::delete`): drop the entry for `k`;
a no-op when `k` is absent. -/
def ldbDelRaw (db : LDB) (k : Str) : LDB :=
  db.filter (fun e => e.1 ≠ k)

/-- Raw store read (`Database::get`): the value bound to `k`, if any. -/
def ldbGetRaw : LDB → Str → Option Val
  | [], _ => none
  | (k0, v0) :: rest, k => if k = k0 then some v0 else ldbGetRaw rest k

/-- The outcome of one call into an external backend: either it services
the call, or it reports a failure with a display message. -/
inductive BackendOutcome where
  | ok : BackendOutcome
  | fail : String → BackendOutcome
deriving DecidableEq, Repr

/-- `LeveldbCollection`: holds only the shared database handle
(`data: Arc<Database<StringKey>>` plus cached options, which do not affect
the key-value semantics modelled here).  Note it stores no collection
name. -/
structure LeveldbCollection where
  data : LDB
deriving Repr

/-- `LeveldbManager`: wraps the shared database. -/
structure LeveldbManager where
  db : LDB
deriving Repr

/-- `LeveldbManager::create_collection`: the identifier argument is
ignored (`_identifier`); every collection is a fresh handle onto the same
shared database. -/
def LeveldbManager.create_collection (m : LeveldbManager) (_identifier : String) :
    LeveldbCollection :=
  ⟨m.db⟩

/-- `LeveldbCollection::generate_key`: wraps the logical key unchanged
(`StringKey(key.to_string())`) — no collection prefix is prepended. -/
def LeveldbCollection.generate_key (_c : LeveldbCollection) (key : Str) : Str := key

/-- `LeveldbCollection::get`: a store-level error (`Err(_)`) and an absent
key (`Ok(None)`) are both mapped to `EntryNotFound`. -/
def LeveldbCollection.get (ro : BackendOutcome) (c : LeveldbCollection) (key : Str) :
    Except DbError Val :=
  let key := c.generate_key key
  match ro with
  | .fail _ => .error .EntryNotFound
  | .ok =>
    match ldbGetRaw c.data key with
    | some v => .ok v
    | none => .error .EntryNotFound

/-- `LeveldbCollection::put`: on store failure, wraps the display message
in `CustomError`; on success the shared database gains the entry. -/
def LeveldbCollection.put (wo : BackendOutcome) (c : LeveldbCollection) (key : Str)
    (data : Val) : Except DbError LeveldbCollection :=
  let key := c.generate_key key
  match wo with
  | .fail e => .error (.CustomError ("Error putting data: " ++ e))
  | .ok => .ok ⟨ldbPutRaw c.data key data⟩

/-- `LeveldbCollection::del`: on store failure, wraps the display message
in `CustomError` (with the source's spelling); on success the entry is
removed. -/
def LeveldbCollection.del (wo : BackendOutcome) (c : LeveldbCollection) (key : Str) :
    Except DbError LeveldbCollection :=
  let key := c.generate_key key
  match wo with
  | .fail e => .error (.CustomError ("Error deletting data: " ++ e))
  | .ok => .ok ⟨ldbDelRaw c.data key⟩

/-- Modelled from the spec: a raw cursor of the external `leveldb` crate —
the snapshot's sorted entries, a current position (`none` = invalid), and
the crate's `start` flag. -/
structure LdbCursor where
  elems : LDB
  pos : Option Nat
  started : Bool
deriving Repr

/-- Modelled from the spec: a freshly constructed forward cursor is
positioned on the first entry. -/
def LdbCursor.freshFwd (db : LDB) : LdbCursor :=
  ⟨db, if db.isEmpty then none else some 0, true⟩

/-- Modelled from the spec: a freshly constructed reverse cursor
(`iter().reverse()`) is positioned on the last entry. -/
def LdbCursor.freshRev (db : LDB) : LdbCursor :=
  ⟨db, if db.isEmpty then none else some (db.length - 1), true⟩

/-- Index of the first entry whose key is `≥ t`, if any. -/
def firstIdxGE : LDB → Str → Option Nat
  | [], _ => none
  | e :: rest, t =>
    if ltb e.1 t then (firstIdxGE rest t).map (· + 1) else some 0

/-- Modelled from the spec: `seek` positions the raw cursor on the first
entry whose key is `≥` the target (invalid when none is), leaving the
`start` flag untouched. -/
def LdbCursor.seek (c : LdbCursor) (t : Str) : LdbCursor :=
  ⟨c.elems, firstIdxGE c.elems t, c.started⟩

/-- The entry under the cursor, if the position is valid. -/
def LdbCursor.read (c : LdbCursor) : Option (Str × Val) :=
  c.pos.bind (fun i => c.elems[i]?)

/-- Modelled from the spec: one `next()` of the crate's forward iterator —
the first call after construction/seek consumes the `start` flag and
yields the current entry; later calls step forward then yield. -/
def LdbCursor.nextFwd (c : LdbCursor) : Option (Str × Val) × LdbCursor :=
  if c.started then (c.read, { c with started := false })
  else
    let c' : LdbCursor :=
      { c with pos := c.pos.bind (fun i => if i + 1 < c.elems.length then some (i + 1) else none) }
    (c'.read, c')

/-- Modelled from the spec: one `next()` of the crate's reverse iterator —
as `nextFwd`, but stepping backward (invalid below position 0). -/
def LdbCursor.nextRev (c : LdbCursor) : Option (Str × Val) × LdbCursor :=
  if c.started then (c.read, { c with started := false })
  else
    let c' : LdbCursor :=
      { c with pos := c.pos.bind (fun i => if i = 0 then none else some (i - 1)) }
    (c'.read, c')

/-- Modelled from the spec: the crate's `advance()` on a reverse iterator —
consumes the `start` flag if set, otherwise steps backward. -/
def LdbCursor.advanceRev (c : LdbCursor) : LdbCursor :=
  if c.started then { c with started := false }
  else { c with pos := c.pos.bind (fun i => if i = 0 then none else some (i - 1)) }

/-- `LeveldbIterator::new`: seeks the forward cursor to the iteration
target (`table_name`, which at the only call site is the caller's
prefix). -/
def LeveldbIterator.new (db : LDB) (table_name : Str) : LdbCursor :=
  (LdbCursor.freshFwd db).seek table_name

/-- `LeveldbIterator::next`, iterated to exhaustion (driven with enough
fuel): yield entries until the cursor is invalid or a key no longer starts
with `table_name`, stripping `table_name` from each yielded key via
`replace`. -/
def fwdRun (table_name : Str) : LdbCursor → Nat → List (Str × Val)
  | _, 0 => []
  | c, fuel + 1 =>
    match c.nextFwd with
    | (none, _) => []
    | (some (k, v), c') =>
      if table_name.isPrefixOf k then (removeOcc table_name k, v) :: fwdRun table_name c' fuel
      else []

/-- `RevLeveldbIterator::next`, iterated to exhaustion: as `fwdRun` but on
the reverse cursor. -/
def revRun (table_name : Str) : LdbCursor → Nat → List (Str × Val)
  | _, 0 => []
  | c, fuel + 1 =>
    match c.nextRev with
    | (none, _) => []
    | (some (k, v), c') =>
      if table_name.isPrefixOf k then (removeOcc table_name k, v) :: revRun table_name c' fuel
      else []

/-- `LeveldbCollection::iter`, materialized into the list of yielded
entries.  Reverse branch: seek a reverse cursor to the sentinel
`prefix + char::MAX + char::MAX`; probe it with `peekable().peek()`; when
the probe yields an entry, build a second cursor, seek it to the sentinel
again and `advance()` it once; otherwise use a fresh reverse cursor.
Fuel `length + 1` drives either iterator to exhaustion. -/
def LeveldbCollection.iter (c : LeveldbCollection) (reverse : Bool) (pfx : Str) :
    List (Str × Val) :=
  let db := c.data
  if reverse then
    let it := (LdbCursor.freshRev db).seek (sentinel pfx)
    let peeked := it.nextRev.1
    let it2 :=
      if peeked.isSome then ((LdbCursor.freshRev db).seek (sentinel pfx)).advanceRev
      else LdbCursor.freshRev db
    revRun pfx it2 (db.length + 1)
  else
    fwdRun pfx (LeveldbIterator.new db pfx) (db.length + 1)

/-- One logical storage mutation, used to range over "any sequence of
operations" in the claims. -/
inductive Op where
  | put : Str → Val → Op
  | del : Str → Op
deriving DecidableEq, Repr

/-- Apply one successful mutation to the shared LevelDB database. -/
def ldbApply (db : LDB) (o : Op) : LDB :=
  match o with
  | .put k v => ldbPutRaw db k v
  | .del k => ldbDelRaw db k

/-- The shared LevelDB database reached from an empty store by a sequence
of successful mutations. -/
def ldbExec (ops : List Op) : LDB := ops.foldl ldbApply []

/-- Strict key order on entries. -/
def keyLt (a b : Str × Val) : Prop := ltb a.1 b.1 = true

instance : DecidableRel keyLt := fun a b => by
  unfold keyLt; infer_instance

instance : IsAntisymm (Str × Val) keyLt where
  antisymm a b h1 h2 := absurd h2 (by simp [keyLt, ltb_asymm h1])

/-- Keys of the physical store are strictly ascending. -/
def SortedKeys (db : LDB) : Prop :=
  List.Pairwise keyLt db

/-! ### Characterizing the LevelDB iterators -/

/-- What an iterator yields from a row list: entries up to the first key
that no longer starts with the target, keys stripped via `replace`. -/
def stripEntries (t : Str) (l : List (Str × Val)) : List (Str × Val) :=
  (l.takeWhile (fun e => t.isPrefixOf e.1)).map (fun e => (removeOcc t e.1, e.2))

theorem fwdRun_invalid (t : Str) (db : LDB) (b : Bool) (fuel : Nat) :
    fwdRun t ⟨db, none, b⟩ fuel = [] := by
  cases fuel with
  | zero => rfl
  | succ n => cases b <;> simp [fwdRun, LdbCursor.nextFwd, LdbCursor.read]

theorem revRun_invalid (t : Str) (db : LDB) (b : Bool) (fuel : Nat) :
    revRun t ⟨db, none, b⟩ fuel = [] := by
  cases fuel with
  | zero => rfl
  | succ n => cases b <;> simp [revRun, LdbCursor.nextRev, LdbCursor.read]

theorem fwdRun_step_none (t : Str) {db : LDB} {i : Nat} (h : db[i]? = none)
    (fuel : Nat) : fwdRun t ⟨db, some i, true⟩ (fuel + 1) = [] := by
  simp [fwdRun, LdbCursor.nextFwd, LdbCursor.read, h]

theorem fwdRun_step_some (t : Str) {db : LDB} {i : Nat} {e : Str × Val}
    (h : db[i]? = some e) (fuel : Nat) :
    fwdRun t ⟨db, some i, true⟩ (fuel + 1) =
      if t.isPrefixOf e.1 then (removeOcc t e.1, e.2) :: fwdRun t ⟨db, some i, false⟩ fuel
      else [] := by
  simp [fwdRun, LdbCursor.nextFwd, LdbCursor.read, h]

theorem revRun_step_none (t : Str) {db : LDB} {i : Nat} (h : db[i]? = none)
    (fuel : Nat) : revRun t ⟨db, some i, true⟩ (fuel + 1) = [] := by
  simp [revRun, LdbCursor.nextRev, LdbCursor.read, h]

theorem revRun_step_some (t : Str) {db : LDB} {i : Nat} {e : Str × Val}
    (h : db[i]? = some e) (fuel : Nat) :
    revRun t ⟨db, some i, true⟩ (fuel + 1) =
      if t.isPrefixOf e.1 then (removeOcc t e.1, e.2) :: revRun t ⟨db, some i, false⟩ fuel
      else [] := by
  simp [revRun, LdbCursor.nextRev, LdbCursor.read, h]

theorem fwdRun_unstarted (t : Str) (db : LDB) (i fuel : Nat) :
    fwdRun t ⟨db, some i, false⟩ fuel =
      fwdRun t ⟨db, if i + 1 < db.length then some (i + 1) else none, true⟩ fuel := by
  cases fuel with
  | zero => rfl
  | succ n =>
    by_cases h : i + 1 < db.length <;>
      simp [fwdRun, LdbCursor.nextFwd, LdbCursor.read, h]

theorem revRun_unstarted (t : Str) (db : LDB) (i fuel : Nat) :
    revRun t ⟨db, some i, false⟩ fuel =
      revRun t ⟨db, if i = 0 then none else some (i - 1), true⟩ fuel := by
  cases fuel with
  | zero => rfl
  | succ n =>
    by_cases h : i = 0 <;>
      simp [revRun, LdbCursor.nextRev, LdbCursor.read, h]

theorem fwdRun_started (t : Str) (db : LDB) :
    ∀ fuel i, db.length - i < fuel →
      fwdRun t ⟨db, some i, true⟩ fuel = stripEntries t (db.drop i) := by
  intro fuel
  induction fuel with
  | zero => intro i h; omega
  | succ n ih =>
    intro i h
    cases hget : db[i]? with
    | none =>
      have hlen : db.length ≤ i := by
        by_contra hc
        rw [List.getElem?_eq_getElem (by omega)] at hget
        exact Option.noConfusion hget
      rw [fwdRun_step_none t hget, List.drop_eq_nil_of_le hlen]
      rfl
    | some e =>
      have hi : i < db.length := by
        by_contra hc
        rw [List.getElem?_eq_none (by omega)] at hget
        exact Option.noConfusion hget
      have hdbi : db[i] = e := by
        have := List.getElem?_eq_getElem hi
        rw [hget] at this
        exact (Option.some_inj.mp this).symm
      rw [fwdRun_step_some t hget, List.drop_eq_getElem_cons hi, hdbi]
      by_cases hp : t.isPrefixOf e.1
      · rw [if_pos hp]
        have hrec : fwdRun t ⟨db, some i, false⟩ n = stripEntries t (db.drop (i + 1)) := by
          rw [fwdRun_unstarted]
          by_cases h2 : i + 1 < db.length
          · rw [if_pos h2]
            exact ih (i + 1) (by omega)
          · rw [if_neg h2, fwdRun_invalid,
              List.drop_eq_nil_of_le (by omega)]
            rfl
        rw [hrec]
        simp [stripEntries, List.takeWhile_cons, hp]
      · rw [if_neg hp]
        simp [stripEntries, List.takeWhile_cons, hp]

theorem revRun_started (t : Str) (db : LDB) :
    ∀ fuel i, i < db.length → i + 1 < fuel →
      revRun t ⟨db, some i, true⟩ fuel = stripEntries t ((db.take (i + 1)).reverse) := by
  intro fuel
  induction fuel with
  | zero => intro i _ h; omega
  | succ n ih =>
    intro i hi hfuel
    have hget : db[i]? = some db[i] := List.getElem?_eq_getElem hi
    rw [revRun_step_some t hget]
    have htake : (db.take (i + 1)).reverse = db[i] :: (db.take i).reverse := by
      rw [List.take_succ, hget]
      simp
    rw [htake]
    by_cases hp : t.isPrefixOf db[i].1
    · rw [if_pos hp]
      have hrec : revRun t ⟨db, some i, false⟩ n =
          stripEntries t ((db.take i).reverse) := by
        rw [revRun_unstarted]
        cases i with
        | zero => rw [if_pos rfl, revRun_invalid]; rfl
        | succ j =>
          rw [if_neg (Nat.succ_ne_zero j)]
          have : j + 1 - 1 = j := rfl
          rw [this, ih j (by omega) (by omega)]
      rw [hrec]
      simp [stripEntries, List.takeWhile_cons, hp]
    · rw [if_neg hp]
      simp [stripEntries, List.takeWhile_cons, hp]

/-! ### `firstIdxGE` (the seek landing position) -/

theorem firstIdxGE_lt_length {db : LDB} {t : Str} {i : Nat}
    (h : firstIdxGE db t = some i) : i < db.length := by
  induction db generalizing i with
  | nil => exact Option.noConfusion h
  | cons e rest ih =>
    simp only [firstIdxGE] at h
    by_cases he : ltb e.1 t
    · rw [if_pos he] at h
      cases hr : firstIdxGE rest t with
      | none => rw [hr] at h; exact Option.noConfusion h
      | some j =>
        rw [hr] at h
        simp only [Option.map_some'] at h
        have hij : i = j + 1 := (Option.some_inj.mp h).symm
        have := ih hr
        simp only [List.length_cons]
        omega
    · rw [if_neg he] at h
      have : i = 0 := (Option.some_inj.mp h).symm
      simp [this]

theorem firstIdxGE_none_all {db : LDB} {t : Str}
    (h : firstIdxGE db t = none) : ∀ e ∈ db, ltb e.1 t = true := by
  induction db with
  | nil => intro e he; exact absurd he (List.not_mem_nil e)
  | cons f rest ih =>
    simp only [firstIdxGE] at h
    by_cases hf : ltb f.1 t
    · rw [if_pos hf] at h
      intro e he
      rcases List.mem_cons.mp he with rfl | hmem
      · exact hf
      · cases hr : firstIdxGE rest t with
        | none => exact ih hr e hmem
        | some j => rw [hr] at h; exact Option.noConfusion h
    · rw [if_neg hf] at h
      exact Option.noConfusion h

theorem firstIdxGE_take_all {db : LDB} {t : Str} {i : Nat}
    (h : firstIdxGE db t = some i) : ∀ e ∈ db.take i, ltb e.1 t = true := by
  induction db generalizing i with
  | nil => intro e he; simp at he
  | cons f rest ih =>
    simp only [firstIdxGE] at h
    by_cases hf : ltb f.1 t
    · rw [if_pos hf] at h
      cases hr : firstIdxGE rest t with
      | none => rw [hr] at h; exact Option.noConfusion h
      | some j =>
        rw [hr] at h
        simp only [Option.map_some'] at h
        have hij : i = j + 1 := (Option.some_inj.mp h).symm
        subst hij
        intro e he
        rcases List.mem_cons.mp (by simpa using he) with h1 | h1
        · subst h1; exact hf
        · exact ih hr e h1
    · rw [if_neg hf] at h
      have : i = 0 := (Option.some_inj.mp h).symm
      subst this
      intro e he
      simp at he

theorem firstIdxGE_drop_all {db : LDB} {t : Str} {i : Nat} (hs : SortedKeys db)
    (h : firstIdxGE db t = some i) : ∀ e ∈ db.drop i, ltb e.1 t = false := by
  induction db generalizing i with
  | nil => exact absurd h (by simp [firstIdxGE])
  | cons f rest ih =>
    have hs' := (List.pairwise_cons.mp hs)
    simp only [firstIdxGE] at h
    by_cases hf : ltb f.1 t
    · rw [if_pos hf] at h
      cases hr : firstIdxGE rest t with
      | none => rw [hr] at h; exact Option.noConfusion h
      | some j =>
        rw [hr] at h
        simp only [Option.map_some'] at h
        have hij : i = j + 1 := (Option.some_inj.mp h).symm
        subst hij
        intro e he
        exact ih hs'.2 hr e (by simpa using he)
    · rw [if_neg hf] at h
      have : i = 0 := (Option.some_inj.mp h).symm
      subst this
      intro e he
      simp only [List.drop_zero] at he
      rcases List.mem_cons.mp he with rfl | hmem
      · exact (Bool.not_eq_true _).mp hf
      · by_contra hc
        have het : ltb e.1 t = true := by
          cases het : ltb e.1 t
          · exact absurd het hc
          · rfl
        have hfe : ltb f.1 e.1 = true := hs'.1 e hmem
        exact hf (ltb_trans hfe het)

/-! ### takeWhile agrees with filter on sorted segments -/

theorem takeWhile_eq_filter_of_stable {α : Type} {R : α → α → Prop} {p : α → Bool} :
    ∀ {l : List α}, l.Pairwise R →
      (∀ a ∈ l, ∀ b ∈ l, R a b → p a = false → p b = false) →
      l.takeWhile p = l.filter p := by
  intro l
  induction l with
  | nil => intro _ _; rfl
  | cons a rest ih =>
    intro hp hstab
    have hp' := List.pairwise_cons.mp hp
    cases ha : p a with
    | true =>
      rw [List.takeWhile_cons, List.filter_cons, ha]
      simp only [if_true]
      rw [ih hp'.2 (fun x hx y hy hxy hxf =>
        hstab x (List.mem_cons_of_mem a hx) y (List.mem_cons_of_mem a hy) hxy hxf)]
    | false =>
      rw [List.takeWhile_cons, List.filter_cons, ha]
      simp only [Bool.false_eq_true, if_false]
      have : rest.filter p = [] := by
        rw [List.filter_eq_nil_iff]
        intro b hb
        have := hstab a (List.mem_cons_self a rest) b (List.mem_cons_of_mem a hb)
          (hp'.1 b hb) ha
        simp [this]
      rw [this]

/-! ### The LevelDB iterators as filters over the snapshot -/

theorem isPrefixOf_append_self (l r : Str) : l.isPrefixOf (l ++ r) = true := by
  induction l with
  | nil => simp [List.isPrefixOf]
  | cons c rest ih => simp [List.isPrefixOf, ih]

/-- A key below the sentinel that does not start with the prefix is
strictly below the prefix itself. -/
theorem ltb_pfx_of_not_prefixed {a pfx : Str} (ha : ltb a (sentinel pfx) = true)
    (hnp : pfx.isPrefixOf a = false) : ltb a pfx = true := by
  by_contra hc
  have hge : ltb a pfx = false := by
    cases h : ltb a pfx
    · rfl
    · exact absurd h hc
  have := isPrefixOf_of_between hge (ltb_asymm ha) (isPrefixOf_append_self pfx [maxChar, maxChar])
  rw [this] at hnp
  exact Bool.noConfusion hnp

/-- Forward iteration over a sorted snapshot yields exactly the entries
whose key starts with the prefix, in ascending key order, each key
stripped of every occurrence of the prefix. -/
theorem ldbIter_forward (db : LDB) (hs : SortedKeys db) (pfx : Str) :
    LeveldbCollection.iter ⟨db⟩ false pfx =
      (db.filter (fun e => pfx.isPrefixOf e.1)).map (fun e => (removeOcc pfx e.1, e.2)) := by
  have hiter : LeveldbCollection.iter ⟨db⟩ false pfx =
      fwdRun pfx ⟨db, firstIdxGE db pfx, true⟩ (db.length + 1) := by
    simp [LeveldbCollection.iter, LeveldbIterator.new, LdbCursor.freshFwd, LdbCursor.seek]
  rw [hiter]
  cases hfi : firstIdxGE db pfx with
  | none =>
    rw [fwdRun_invalid]
    have hnil : db.filter (fun e => pfx.isPrefixOf e.1) = [] := by
      rw [List.filter_eq_nil_iff]
      intro e he hp
      have h1 := firstIdxGE_none_all hfi e he
      have h2 := not_ltb_of_isPrefixOf hp
      rw [h1] at h2
      exact Bool.noConfusion h2
    rw [hnil]
    rfl
  | some i =>
    have hi := firstIdxGE_lt_length hfi
    rw [fwdRun_started pfx db (db.length + 1) i (by omega)]
    have htw : (db.drop i).takeWhile (fun e => pfx.isPrefixOf e.1) =
        (db.drop i).filter (fun e => pfx.isPrefixOf e.1) := by
      refine takeWhile_eq_filter_of_stable (R := keyLt)
        (hs.sublist (List.drop_sublist i db)) ?_
      intro a ha b hb hab haf
      cases hpb : pfx.isPrefixOf b.1
      · rfl
      · have hpa := isPrefixOf_of_between (firstIdxGE_drop_all hs hfi a ha)
          (ltb_asymm hab) hpb
        rw [hpa] at haf
        exact Bool.noConfusion haf
    have hfl : db.filter (fun e => pfx.isPrefixOf e.1) =
        (db.drop i).filter (fun e => pfx.isPrefixOf e.1) := by
      conv_lhs => rw [← List.take_append_drop i db]
      rw [List.filter_append]
      have : (db.take i).filter (fun e => pfx.isPrefixOf e.1) = [] := by
        rw [List.filter_eq_nil_iff]
        intro e he hp
        have h1 := firstIdxGE_take_all hfi e he
        have h2 := not_ltb_of_isPrefixOf hp
        rw [h1] at h2
        exact Bool.noConfusion h2
      rw [this, List.nil_append]
    rw [hfl, stripEntries, htw]

/-- Reverse iteration over a sorted snapshot yields exactly the entries
whose key starts with the prefix AND sorts strictly below the sentinel,
in descending key order, each key stripped of every occurrence of the
prefix. -/
theorem ldbIter_reverse (db : LDB) (hs : SortedKeys db) (pfx : Str) :
    LeveldbCollection.iter ⟨db⟩ true pfx =
      ((db.filter (fun e => pfx.isPrefixOf e.1 && ltb e.1 (sentinel pfx))).reverse).map
        (fun e => (removeOcc pfx e.1, e.2)) := by
  have hstab : ∀ (l : List (Str × Val)), (∀ e ∈ l, ltb e.1 (sentinel pfx) = true) →
      List.Pairwise keyLt l →
      (l.reverse).takeWhile (fun e => pfx.isPrefixOf e.1) =
        (l.reverse).filter (fun e => pfx.isPrefixOf e.1) := by
    intro l hlt hpw
    refine takeWhile_eq_filter_of_stable (R := fun a b => keyLt b a)
      (List.pairwise_reverse.mpr hpw) ?_
    intro a ha b hb hab haf
    have ha' := List.mem_reverse.mp ha
    have hb' := List.mem_reverse.mp hb
    have halt : ltb a.1 pfx = true := ltb_pfx_of_not_prefixed (hlt a ha') haf
    cases hpb : pfx.isPrefixOf b.1
    · rfl
    · have h1 := not_ltb_of_isPrefixOf hpb
      have h2 : ltb b.1 pfx = true := ltb_trans hab halt
      rw [h2] at h1
      exact Bool.noConfusion h1
  cases hfi : firstIdxGE db (sentinel pfx) with
  | none =>
    have hiter : LeveldbCollection.iter ⟨db⟩ true pfx =
        revRun pfx (LdbCursor.freshRev db) (db.length + 1) := by
      simp [LeveldbCollection.iter, LdbCursor.freshRev, LdbCursor.seek, LdbCursor.nextRev,
        LdbCursor.read, hfi]
    rw [hiter]
    have hall : ∀ e ∈ db, ltb e.1 (sentinel pfx) = true := firstIdxGE_none_all hfi
    have hfc : db.filter (fun e => pfx.isPrefixOf e.1 && ltb e.1 (sentinel pfx)) =
        db.filter (fun e => pfx.isPrefixOf e.1) := by
      refine List.filter_congr ?_
      intro e he
      rw [hall e he, Bool.and_true]
    rw [hfc]
    cases hdb : db with
    | nil => simp [LdbCursor.freshRev, revRun, LdbCursor.nextRev, LdbCursor.read]
    | cons d ds =>
      have hne : (d :: ds).isEmpty = false := rfl
      have hfresh : LdbCursor.freshRev (d :: ds) =
          ⟨d :: ds, some ((d :: ds).length - 1), true⟩ := by
        simp [LdbCursor.freshRev]
      rw [hfresh]
      rw [revRun_started pfx (d :: ds) ((d :: ds).length + 1) ((d :: ds).length - 1)
        (by simp) (by simp)]
      have htl : (d :: ds).take ((d :: ds).length - 1 + 1) = d :: ds := by
        rw [List.take_of_length_le (by simp)]
      rw [htl, stripEntries]
      rw [hstab (d :: ds) (by rw [← hdb]; exact hall) (by rw [← hdb]; exact hs)]
      rw [List.filter_reverse]
  | some i0 =>
    have hi0 := firstIdxGE_lt_length hfi
    have hread : db[i0]? = some db[i0] := List.getElem?_eq_getElem hi0
    have hiter : LeveldbCollection.iter ⟨db⟩ true pfx =
        revRun pfx ⟨db, some i0, false⟩ (db.length + 1) := by
      simp [LeveldbCollection.iter, LdbCursor.freshRev, LdbCursor.seek, LdbCursor.nextRev,
        LdbCursor.read, LdbCursor.advanceRev, hfi, hread]
    rw [hiter, revRun_unstarted]
    have hdropall := firstIdxGE_drop_all hs hfi
    have hfd : db.filter (fun e => pfx.isPrefixOf e.1 && ltb e.1 (sentinel pfx)) =
        (db.take i0).filter (fun e => pfx.isPrefixOf e.1) := by
      conv_lhs => rw [← List.take_append_drop i0 db]
      rw [List.filter_append]
      have h2 : (db.drop i0).filter
          (fun e => pfx.isPrefixOf e.1 && ltb e.1 (sentinel pfx)) = [] := by
        rw [List.filter_eq_nil_iff]
        intro e he hp
        rw [hdropall e he, Bool.and_false] at hp
        exact Bool.noConfusion hp
      have h1 : (db.take i0).filter
          (fun e => pfx.isPrefixOf e.1 && ltb e.1 (sentinel pfx)) =
          (db.take i0).filter (fun e => pfx.isPrefixOf e.1) := by
        refine List.filter_congr ?_
        intro e he
        rw [firstIdxGE_take_all hfi e he, Bool.and_true]
      rw [h1, h2, List.append_nil]
    rw [hfd]
    cases hi0z : i0 with
    | zero =>
      rw [if_pos rfl, revRun_invalid]
      rw [hi0z] at *
      simp
    | succ j =>
      rw [if_neg (Nat.succ_ne_zero j)]
      have hjj : j + 1 - 1 = j := rfl
      rw [hjj]
      rw [revRun_started pfx db (db.length + 1) j (by omega) (by omega)]
      have : db.take (j + 1) = db.take i0 := by rw [hi0z]
      rw [this, stripEntries]
      rw [hstab (db.take i0) (firstIdxGE_take_all hfi) (hs.sublist (List.take_sublist i0 db))]
      rw [List.filter_reverse]

/-! ## Backend B — SQLite (`src/database/sqlite.rs`)

One collection maps to one table `(id TEXT PRIMARY KEY, value BLOB NOT
NULL)`.  A table is modelled as its rows (an association list with
pairwise-distinct keys, the PRIMARY KEY invariant); `ORDER BY id` sorts by
the binary collation on TEXT, i.e. by `ltb`. -/

/-- The rows of one collection's table. -/
abbrev Table := List (Str × Val)

/-- `INSERT OR REPLACE`: replace the row with this key, or add a row. -/
def sqPutRaw : Table → Str → Val → Table
  | [], k, v => [(k, v)]
  | (k0, v0) :: rest, k, v =>
    if k = k0 then (k, v) :: rest else (k0, v0) :: sqPutRaw rest k v

/-- `DELETE FROM <table> WHERE id = ?1`: drop the row, no-op if absent. -/
def sqDelRaw (tbl : Table) (k : Str) : Table :=
  tbl.filter (fun e => e.1 ≠ k)

/-- `SELECT value FROM <table> WHERE id = ?1`: the row's value, if any. -/
def sqGetRaw : Table → Str → Option Val
  | [], _ => none
  | (k0, v0) :: rest, k => if k = k0 then some v0 else sqGetRaw rest k

/-- Insert one row into a key-ascending list of rows. -/
def insertAsc (e : Str × Val) : Table → Table
  | [] => [e]
  | f :: rest => if ltb e.1 f.1 then e :: f :: rest else f :: insertAsc e rest

/-- The rows in ascending `id` order (`ORDER BY id ASC`, binary collation). -/
def sortAsc : Table → Table
  | [] => []
  | e :: rest => insertAsc e (sortAsc rest)

/-- The result set of `SELECT id, value FROM <table> ORDER BY id {ASC|DESC}`. -/
def orderedRows (tbl : Table) (reverse : Bool) : Table :=
  if reverse then (sortAsc tbl).reverse else sortAsc tbl

/-- The row loop of `SqliteCollection::make_iter`: skip rows whose key does
not start with the prefix (`continue`), and push
`(key[key.rfind(char::MAX).unwrap_or(0)..key.len()], value)` for the
rest. -/
def collectRows (pfx : Str) : Table → List (Str × Val)
  | [] => []
  | (k, v) :: rest =>
    if pfx.isPrefixOf k then (cutAtLastSep k, v) :: collectRows pfx rest
    else collectRows pfx rest

/-- `SqliteCollection::make_iter`: materialize the filtered result set, or
fail (`SQLiteResult::Err`) when preparing/stepping the query fails.  (The
connection lock is taken with `.expect`, which panics rather than returns
on failure, so it has no error value here.) -/
def SqliteCollection.make_iter (qo : BackendOutcome) (tbl : Table) (reverse : Bool)
    (pfx : Str) : Option (List (Str × Val)) :=
  match qo with
  | .fail _ => none
  | .ok => some (collectRows pfx (orderedRows tbl reverse))

/-- `SqliteCollection::iter`: any `make_iter` failure is replaced by the
empty iterator (`Err(_) => Box::new(std::iter::empty())`). -/
def SqliteCollection.iter (qo : BackendOutcome) (tbl : Table) (reverse : Bool)
    (pfx : Str) : List (Str × Val) :=
  match SqliteCollection.make_iter qo tbl reverse pfx with
  | some it => it
  | none => []

/-- `SqliteCollection::get`: a lock failure is `CustomError("open
connection")`; an absent row and any `query_row` failure are both
`EntryNotFound`. -/
def SqliteCollection.get (lock qo : BackendOutcome) (tbl : Table) (key : Str) :
    Except DbError Val :=
  match lock with
  | .fail _ => .error (.CustomError "open connection")
  | .ok =>
    match qo with
    | .fail _ => .error .EntryNotFound
    | .ok =>
      match sqGetRaw tbl key with
      | some v => .ok v
      | none => .error .EntryNotFound

/-- `SqliteCollection::put`: a lock failure is `CustomError("open
connection")`, an execute failure is `CustomError("insert error")`. -/
def SqliteCollection.put (lock qo : BackendOutcome) (tbl : Table) (key : Str)
    (data : Val) : Except DbError Table :=
  match lock with
  | .fail _ => .error (.CustomError "open connection")
  | .ok =>
    match qo with
    | .fail _ => .error (.CustomError "insert error")
    | .ok => .ok (sqPutRaw tbl key data)

/-- `SqliteCollection::del`: a lock failure is `CustomError("open
connection")`, an execute failure is `CustomError("delete error")`. -/
def SqliteCollection.del (lock qo : BackendOutcome) (tbl : Table) (key : Str) :
    Except DbError Table :=
  match lock with
  | .fail _ => .error (.CustomError "open connection")
  | .ok =>
    match qo with
    | .fail _ => .error (.CustomError "delete error")
    | .ok => .ok (sqDelRaw tbl key)

/-- Apply one successful mutation to a SQLite table. -/
def sqApply (tbl : Table) (o : Op) : Table :=
  match o with
  | .put k v => sqPutRaw tbl k v
  | .del k => sqDelRaw tbl k

/-- The table reached from an empty (freshly created) table by a sequence
of successful mutations. -/
def sqExec (ops : List Op) : Table := ops.foldl sqApply []

/-- The PRIMARY KEY invariant: row keys are pairwise distinct. -/
def DistinctKeys (tbl : Table) : Prop :=
  List.Pairwise (fun a b => a.1 ≠ b.1) tbl

/-- Strictly ascending keys are in particular pairwise distinct. -/
theorem DistinctKeys.of_sorted {db : LDB} (hs : SortedKeys db) : DistinctKeys db := by
  refine hs.imp ?_
  intro a b hab
  intro h
  rw [keyLt, h, ltb_irrefl] at hab
  exact absurd hab (by simp)

/-! ### SQLite connections and databases

`SqliteManager` stores only a path; **every** `create_collection` call
opens a fresh connection to that path.  Modelled from the spec and the
rusqlite/SQLite semantics the source relies on: opening a file path twice
connects both connections to the same (shared) database in that file,
while every `Connection::open(":memory:")` creates a fresh, private
in-memory database. -/

/-- One SQLite database: its tables, by name. -/
abbrev SqWorld := List (String × Table)

def getTable (w : SqWorld) (name : String) : Table :=
  match w.find? (fun t => t.1 = name) with
  | some t => t.2
  | none => []

def setTable : SqWorld → String → Table → SqWorld
  | [], name, tbl => [(name, tbl)]
  | (n0, t0) :: rest, name, tbl =>
    if n0 = name then (name, tbl) :: rest else (n0, t0) :: setTable rest name tbl

/-- `CREATE TABLE IF NOT EXISTS <name> ...`. -/
def createTableIfAbsent (w : SqWorld) (name : String) : SqWorld :=
  if (w.find? (fun t => t.1 = name)).isSome then w else w ++ [(name, [])]

/-- Which physical database a connection is attached to. -/
inductive ConnRef where
  | file : ConnRef
  | mem : Nat → ConnRef
deriving DecidableEq, Repr

/-- A `SqliteCollection` handle: its connection and its table name. -/
structure SqHandle where
  conn : ConnRef
  table : String
deriving DecidableEq, Repr

/-- The databases reachable from one `SqliteManager`: the shared database
at its file path, and one private database per `:memory:` connection. -/
structure SqNodeState where
  fileDb : SqWorld
  memDbs : List SqWorld
deriving Repr

/-- The database a handle's connection is attached to. -/
def SqNodeState.resolve (st : SqNodeState) (r : ConnRef) : SqWorld :=
  match r with
  | .file => st.fileDb
  | .mem i => (st.memDbs[i]?).getD []

/-- Update the database a connection is attached to. -/
def SqNodeState.update (st : SqNodeState) (r : ConnRef) (w : SqWorld) : SqNodeState :=
  match r with
  | .file => { st with fileDb := w }
  | .mem i => { st with memDbs := st.memDbs.set i w }

/-- `SqliteManager::create_collection`: open a **new** connection to the
manager's path (a fresh private database when the path is `":memory:"`,
the shared file database otherwise), issue `CREATE TABLE IF NOT EXISTS`,
and return a handle bound to that connection and table. -/
def SqliteManager.create_collection (path : String) (st : SqNodeState)
    (identifier : String) : SqHandle × SqNodeState :=
  if path = ":memory:" then
    (⟨.mem st.memDbs.length, identifier⟩,
      { st with memDbs := st.memDbs ++ [createTableIfAbsent [] identifier] })
  else
    (⟨.file, identifier⟩, { st with fileDb := createTableIfAbsent st.fileDb identifier })

/-- A successful `put` through a handle, as a transformation of the
manager-wide state. -/
def SqHandle.put (h : SqHandle) (st : SqNodeState) (key : Str) (v : Val) : SqNodeState :=
  let w := st.resolve h.conn
  st.update h.conn (setTable w h.table (sqPutRaw (getTable w h.table) key v))

/-- A failure-free `get` through a handle. -/
def SqHandle.get (h : SqHandle) (st : SqNodeState) (key : Str) : Except DbError Val :=
  SqliteCollection.get .ok .ok (getTable (st.resolve h.conn) h.table) key

/-- A failure-free `iterate` through a handle. -/
def SqHandle.iter (h : SqHandle) (st : SqNodeState) (reverse : Bool) (pfx : Str) :
    List (Str × Val) :=
  SqliteCollection.iter .ok (getTable (st.resolve h.conn) h.table) reverse pfx

/-! ### Store invariants -/

theorem ltb_ne {a b : Str} (h : ltb a b = true) : a ≠ b := by
  intro hab
  rw [hab, ltb_irrefl] at h
  exact Bool.noConfusion h

theorem mem_ldbPutRaw {db : LDB} {k : Str} {v : Val} {e : Str × Val}
    (h : e ∈ ldbPutRaw db k v) : e ∈ db ∨ e = (k, v) := by
  induction db with
  | nil => simp [ldbPutRaw] at h; right; exact h
  | cons f rest ih =>
    simp only [ldbPutRaw] at h
    by_cases h1 : ltb k f.1
    · rw [if_pos h1] at h
      rcases List.mem_cons.mp h with rfl | h2
      · right; rfl
      · left; exact h2
    · rw [if_neg h1] at h
      by_cases h2 : k = f.1
      · rw [if_pos h2] at h
        rcases List.mem_cons.mp h with rfl | h3
        · right; rfl
        · left; exact List.mem_cons_of_mem f h3
      · rw [if_neg h2] at h
        rcases List.mem_cons.mp h with rfl | h3
        · left; exact List.mem_cons_self f rest
        · rcases ih h3 with h4 | h4
          · left; exact List.mem_cons_of_mem f h4
          · right; exact h4

theorem sorted_ldbPutRaw {db : LDB} (hs : SortedKeys db) (k : Str) (v : Val) :
    SortedKeys (ldbPutRaw db k v) := by
  induction db with
  | nil => simp [ldbPutRaw, SortedKeys]
  | cons f rest ih =>
    have hf := List.pairwise_cons.mp hs
    simp only [ldbPutRaw]
    by_cases h1 : ltb k f.1
    · rw [if_pos h1]
      refine List.pairwise_cons.mpr ⟨?_, hs⟩
      intro e he
      rcases List.mem_cons.mp he with rfl | h2
      · exact h1
      · exact ltb_trans h1 (hf.1 e h2)
    · rw [if_neg h1]
      by_cases h2 : k = f.1
      · rw [if_pos h2]
        refine List.pairwise_cons.mpr ⟨?_, hf.2⟩
        intro e he
        rw [keyLt]
        show ltb k e.1 = true
        rw [h2]
        exact hf.1 e he
      · rw [if_neg h2]
        refine List.pairwise_cons.mpr ⟨?_, ih hf.2⟩
        intro e he
        rcases mem_ldbPutRaw he with h3 | h3
        · exact hf.1 e h3
        · rw [h3]
          show ltb f.1 k = true
          refine ltb_of_ne_of_not_ltb h2 ?_
          cases hx : ltb k f.1
          · rfl
          · exact absurd hx h1

theorem sorted_ldbDelRaw {db : LDB} (hs : SortedKeys db) (k : Str) :
    SortedKeys (ldbDelRaw db k) :=
  hs.sublist (List.filter_sublist db)

theorem sorted_ldbApply {db : LDB} (hs : SortedKeys db) (o : Op) :
    SortedKeys (ldbApply db o) := by
  cases o with
  | put k v => exact sorted_ldbPutRaw hs k v
  | del k => exact sorted_ldbDelRaw hs k

theorem sorted_ldbExec (ops : List Op) : SortedKeys (ldbExec ops) := by
  have hgen : ∀ (l : List Op) (db : LDB), SortedKeys db →
      SortedKeys (l.foldl ldbApply db) := by
    intro l
    induction l with
    | nil => intro db h; exact h
    | cons o rest ih =>
      intro db h
      exact ih (ldbApply db o) (sorted_ldbApply h o)
  exact hgen ops [] (by simp [SortedKeys])

theorem mem_sqPutRaw {tbl : Table} {k : Str} {v : Val} {e : Str × Val}
    (h : e ∈ sqPutRaw tbl k v) : e ∈ tbl ∨ e = (k, v) := by
  induction tbl with
  | nil => simp [sqPutRaw] at h; right; exact h
  | cons f rest ih =>
    simp only [sqPutRaw] at h
    by_cases h1 : k = f.1
    · rw [if_pos h1] at h
      rcases List.mem_cons.mp h with rfl | h2
      · right; rfl
      · left; exact List.mem_cons_of_mem f h2
    · rw [if_neg h1] at h
      rcases List.mem_cons.mp h with rfl | h2
      · left; exact List.mem_cons_self f rest
      · rcases ih h2 with h3 | h3
        · left; exact List.mem_cons_of_mem f h3
        · right; exact h3

theorem distinct_sqPutRaw {tbl : Table} (hd : DistinctKeys tbl) (k : Str) (v : Val) :
    DistinctKeys (sqPutRaw tbl k v) := by
  induction tbl with
  | nil => simp [sqPutRaw, DistinctKeys]
  | cons f rest ih =>
    have hf := List.pairwise_cons.mp hd
    simp only [sqPutRaw]
    by_cases h1 : k = f.1
    · rw [if_pos h1]
      refine List.pairwise_cons.mpr ⟨?_, hf.2⟩
      intro e he
      show k ≠ e.1
      rw [h1]
      exact hf.1 e he
    · rw [if_neg h1]
      refine List.pairwise_cons.mpr ⟨?_, ih hf.2⟩
      intro e he
      rcases mem_sqPutRaw he with h2 | h2
      · exact hf.1 e h2
      · rw [h2]
        exact fun hx => h1 hx.symm

theorem distinct_sqDelRaw {tbl : Table} (hd : DistinctKeys tbl) (k : Str) :
    DistinctKeys (sqDelRaw tbl k) :=
  hd.sublist (List.filter_sublist tbl)

theorem distinct_sqApply {tbl : Table} (hd : DistinctKeys tbl) (o : Op) :
    DistinctKeys (sqApply tbl o) := by
  cases o with
  | put k v => exact distinct_sqPutRaw hd k v
  | del k => exact distinct_sqDelRaw hd k

theorem distinct_sqExec (ops : List Op) : DistinctKeys (sqExec ops) := by
  have hgen : ∀ (l : List Op) (tbl : Table), DistinctKeys tbl →
      DistinctKeys (l.foldl sqApply tbl) := by
    intro l
    induction l with
    | nil => intro tbl h; exact h
    | cons o rest ih =>
      intro tbl h
      exact ih (sqApply tbl o) (distinct_sqApply h o)
  exact hgen ops [] (by simp [DistinctKeys])

/-! ### `ORDER BY id` and the flat keyspace agree on reachable states -/

theorem mem_insertAsc {e f : Str × Val} {l : Table} (h : f ∈ insertAsc e l) :
    f ∈ l ∨ f = e := by
  induction l with
  | nil => simp [insertAsc] at h; right; exact h
  | cons g rest ih =>
    simp only [insertAsc] at h
    by_cases h1 : ltb e.1 g.1
    · rw [if_pos h1] at h
      rcases List.mem_cons.mp h with rfl | h2
      · right; rfl
      · left; exact h2
    · rw [if_neg h1] at h
      rcases List.mem_cons.mp h with rfl | h2
      · left; exact List.mem_cons_self _ _
      · rcases ih h2 with h3 | h3
        · left; exact List.mem_cons_of_mem g h3
        · right; exact h3

theorem perm_insertAsc (e : Str × Val) (l : Table) : insertAsc e l ~ e :: l := by
  induction l with
  | nil => exact List.Perm.refl _
  | cons g rest ih =>
    simp only [insertAsc]
    by_cases h1 : ltb e.1 g.1
    · rw [if_pos h1]
    · rw [if_neg h1]
      calc g :: insertAsc e rest ~ g :: e :: rest := ih.cons g
        _ ~ e :: g :: rest := List.Perm.swap e g rest

theorem perm_sortAsc (tbl : Table) : sortAsc tbl ~ tbl := by
  induction tbl with
  | nil => exact List.Perm.refl _
  | cons e rest ih =>
    calc sortAsc (e :: rest) = insertAsc e (sortAsc rest) := rfl
      _ ~ e :: sortAsc rest := perm_insertAsc e (sortAsc rest)
      _ ~ e :: rest := ih.cons e

theorem sorted_insertAsc {e : Str × Val} {l : Table} (hs : SortedKeys l)
    (hne : ∀ f ∈ l, e.1 ≠ f.1) : SortedKeys (insertAsc e l) := by
  induction l with
  | nil => simp [insertAsc, SortedKeys]
  | cons g rest ih =>
    have hg := List.pairwise_cons.mp hs
    simp only [insertAsc]
    by_cases h1 : ltb e.1 g.1
    · rw [if_pos h1]
      refine List.pairwise_cons.mpr ⟨?_, hs⟩
      intro f hf
      rcases List.mem_cons.mp hf with rfl | h2
      · exact h1
      · exact ltb_trans h1 (hg.1 f h2)
    · rw [if_neg h1]
      refine List.pairwise_cons.mpr ⟨?_, ih hg.2
        (fun f hf => hne f (List.mem_cons_of_mem g hf))⟩
      intro f hf
      rcases mem_insertAsc hf with h2 | h2
      · exact hg.1 f h2
      · rw [h2]
        show ltb g.1 e.1 = true
        refine ltb_of_ne_of_not_ltb ?_ ?_
        · exact hne g (List.mem_cons_self g rest)
        · cases hx : ltb e.1 g.1
          · rfl
          · exact absurd hx h1

theorem sorted_sortAsc {tbl : Table} (hd : DistinctKeys tbl) : SortedKeys (sortAsc tbl) := by
  induction tbl with
  | nil => simp [sortAsc, SortedKeys]
  | cons e rest ih =>
    have he := List.pairwise_cons.mp hd
    refine sorted_insertAsc (ih he.2) ?_
    intro f hf
    exact he.1 f ((perm_sortAsc rest).mem_iff.mp hf)

/-- Two key-sorted row lists that are permutations of each other are
equal. -/
theorem eq_of_perm_of_sortedKeys {l1 l2 : List (Str × Val)} (hp : l1 ~ l2)
    (h1 : SortedKeys l1) (h2 : SortedKeys l2) : l1 = l2 :=
  List.eq_of_perm_of_sorted hp h1 h2

theorem ldbPutRaw_perm {db : LDB} (hs : SortedKeys db) (k : Str) (v : Val) :
    ldbPutRaw db k v ~ (k, v) :: ldbDelRaw db k := by
  induction db with
  | nil => exact List.Perm.refl _
  | cons f rest ih =>
    have hf := List.pairwise_cons.mp hs
    simp only [ldbPutRaw, ldbDelRaw]
    by_cases h1 : ltb k f.1
    · rw [if_pos h1]
      have hrest : rest.filter (fun e => e.1 ≠ k) = rest := by
        rw [List.filter_eq_self]
        intro e he
        have : ltb k e.1 = true := ltb_trans h1 (hf.1 e he)
        simp [(ltb_ne this).symm]
      have hfk : (decide (f.1 ≠ k)) = true := by
        simp [(ltb_ne h1).symm]
      simp only [List.filter_cons, hfk, if_true, hrest]
      exact List.Perm.refl _
    · rw [if_neg h1]
      by_cases h2 : k = f.1
      · rw [if_pos h2]
        have hfk : (decide (f.1 ≠ k)) = false := by simp [h2.symm]
        have hrest : rest.filter (fun e => e.1 ≠ k) = rest := by
          rw [List.filter_eq_self]
          intro e he
          have : ltb k e.1 = true := by
            rw [h2]
            exact hf.1 e he
          simp [(ltb_ne this).symm]
        simp only [List.filter_cons, hfk, Bool.false_eq_true, if_false, hrest]
        exact List.Perm.refl _
      · rw [if_neg h2]
        have hfk : (decide (f.1 ≠ k)) = true := by
          simp
          exact fun hx => h2 hx.symm
        simp only [List.filter_cons, hfk, if_true]
        calc f :: ldbPutRaw rest k v
            ~ f :: (k, v) :: rest.filter (fun e => e.1 ≠ k) := (ih hf.2).cons f
          _ ~ (k, v) :: f :: rest.filter (fun e => e.1 ≠ k) := List.Perm.swap _ _ _

theorem sqPutRaw_perm {tbl : Table} (hd : DistinctKeys tbl) (k : Str) (v : Val) :
    sqPutRaw tbl k v ~ (k, v) :: sqDelRaw tbl k := by
  induction tbl with
  | nil => exact List.Perm.refl _
  | cons f rest ih =>
    have hf := List.pairwise_cons.mp hd
    simp only [sqPutRaw, sqDelRaw]
    by_cases h1 : k = f.1
    · rw [if_pos h1]
      have hfk : (decide (f.1 ≠ k)) = false := by simp [h1.symm]
      have hrest : rest.filter (fun e => e.1 ≠ k) = rest := by
        rw [List.filter_eq_self]
        intro e he
        have h3 := hf.1 e he
        rw [← h1] at h3
        have hne : e.1 ≠ k := fun hx => h3 hx.symm
        simp [hne]
      simp only [List.filter_cons, hfk, Bool.false_eq_true, if_false, hrest]
      exact List.Perm.refl _
    · rw [if_neg h1]
      have hfk : (decide (f.1 ≠ k)) = true := by
        simp
        exact fun hx => h1 hx.symm
      simp only [List.filter_cons, hfk, if_true]
      calc f :: sqPutRaw rest k v
          ~ f :: (k, v) :: rest.filter (fun e => e.1 ≠ k) := (ih hf.2).cons f
        _ ~ (k, v) :: f :: rest.filter (fun e => e.1 ≠ k) := List.Perm.swap _ _ _

theorem sortAsc_putRaw {tbl : Table} (hd : DistinctKeys tbl) (k : Str) (v : Val) :
    sortAsc (sqPutRaw tbl k v) = ldbPutRaw (sortAsc tbl) k v := by
  refine eq_of_perm_of_sortedKeys ?_
    (sorted_sortAsc (distinct_sqPutRaw hd k v))
    (sorted_ldbPutRaw (sorted_sortAsc hd) k v)
  calc sortAsc (sqPutRaw tbl k v)
      ~ sqPutRaw tbl k v := perm_sortAsc _
    _ ~ (k, v) :: sqDelRaw tbl k := sqPutRaw_perm hd k v
    _ ~ (k, v) :: ldbDelRaw (sortAsc tbl) k := by
        refine List.Perm.cons (k, v) ?_
        exact ((perm_sortAsc tbl).filter _).symm
    _ ~ ldbPutRaw (sortAsc tbl) k v := (ldbPutRaw_perm (sorted_sortAsc hd) k v).symm

theorem sortAsc_delRaw {tbl : Table} (hd : DistinctKeys tbl) (k : Str) :
    sortAsc (sqDelRaw tbl k) = ldbDelRaw (sortAsc tbl) k := by
  refine eq_of_perm_of_sortedKeys ?_
    (sorted_sortAsc (distinct_sqDelRaw hd k))
    (sorted_ldbDelRaw (sorted_sortAsc hd) k)
  calc sortAsc (sqDelRaw tbl k)
      ~ sqDelRaw tbl k := perm_sortAsc _
    _ ~ ldbDelRaw (sortAsc tbl) k := ((perm_sortAsc tbl).filter _).symm

/-- The same successful operation sequence leaves the SQLite table holding,
up to `ORDER BY id`, exactly the LevelDB flat keyspace. -/
theorem sortAsc_sqExec_eq_ldbExec (ops : List Op) : sortAsc (sqExec ops) = ldbExec ops := by
  have hgen : ∀ (l : List Op) (tbl : Table), DistinctKeys tbl →
      sortAsc (l.foldl sqApply tbl) = l.foldl ldbApply (sortAsc tbl) := by
    intro l
    induction l with
    | nil => intro tbl _; rfl
    | cons o rest ih =>
      intro tbl hd
      have step : sortAsc (sqApply tbl o) = ldbApply (sortAsc tbl) o := by
        cases o with
        | put k v => exact sortAsc_putRaw hd k v
        | del k => exact sortAsc_delRaw hd k
      calc sortAsc ((o :: rest).foldl sqApply tbl)
          = sortAsc (rest.foldl sqApply (sqApply tbl o)) := rfl
        _ = rest.foldl ldbApply (sortAsc (sqApply tbl o)) := ih _ (distinct_sqApply hd o)
        _ = rest.foldl ldbApply (ldbApply (sortAsc tbl) o) := by rw [step]
  exact hgen ops [] (by simp [DistinctKeys])

/-! ### Reads after writes -/

theorem ldbGetRaw_putRaw_self (db : LDB) (k : Str) (v : Val) :
    ldbGetRaw (ldbPutRaw db k v) k = some v := by
  induction db with
  | nil => simp [ldbPutRaw, ldbGetRaw]
  | cons f rest ih =>
    simp only [ldbPutRaw]
    by_cases h1 : ltb k f.1
    · rw [if_pos h1]
      simp [ldbGetRaw]
    · rw [if_neg h1]
      by_cases h2 : k = f.1
      · rw [if_pos h2]
        simp [ldbGetRaw]
      · rw [if_neg h2]
        have : (f.1, f.2) = f := rfl
        simp only [ldbGetRaw, if_neg h2]
        exact ih

theorem sqGetRaw_putRaw_self (tbl : Table) (k : Str) (v : Val) :
    sqGetRaw (sqPutRaw tbl k v) k = some v := by
  induction tbl with
  | nil => simp [sqPutRaw, sqGetRaw]
  | cons f rest ih =>
    simp only [sqPutRaw]
    by_cases h1 : k = f.1
    · rw [if_pos h1]
      simp [sqGetRaw]
    · rw [if_neg h1]
      simp only [sqGetRaw, if_neg h1]
      exact ih

theorem ldbGetRaw_eq_sqGetRaw (l : List (Str × Val)) (k : Str) :
    ldbGetRaw l k = sqGetRaw l k := by
  induction l with
  | nil => rfl
  | cons f rest ih =>
    simp only [ldbGetRaw, sqGetRaw]
    by_cases h : k = f.1
    · rw [if_pos h, if_pos h]
    · rw [if_neg h, if_neg h]
      exact ih

theorem sqGetRaw_eq_some_iff {tbl : Table} (hd : DistinctKeys tbl) (k : Str) (v : Val) :
    sqGetRaw tbl k = some v ↔ (k, v) ∈ tbl := by
  induction tbl with
  | nil => simp [sqGetRaw]
  | cons f rest ih =>
    have hf := List.pairwise_cons.mp hd
    simp only [sqGetRaw]
    by_cases h : k = f.1
    · rw [if_pos h]
      constructor
      · intro hv
        have hfv : f = (k, v) := Prod.ext h.symm (Option.some_inj.mp hv)
        rw [hfv]
        exact List.mem_cons_self _ _
      · intro hv
        rcases List.mem_cons.mp hv with h2 | h2
        · rw [← h2]
        · exact absurd h.symm (hf.1 (k, v) h2)
    · rw [if_neg h]
      rw [ih hf.2]
      constructor
      · intro hv
        exact List.mem_cons_of_mem f hv
      · intro hv
        rcases List.mem_cons.mp hv with h2 | h2
        · exact absurd (congrArg Prod.fst h2) h
        · exact h2

theorem sqGetRaw_eq_none_iff (tbl : Table) (k : Str) :
    sqGetRaw tbl k = none ↔ ∀ e ∈ tbl, e.1 ≠ k := by
  induction tbl with
  | nil => simp [sqGetRaw]
  | cons f rest ih =>
    simp only [sqGetRaw]
    by_cases h : k = f.1
    · rw [if_pos h]
      constructor
      · intro hv
        exact Option.noConfusion hv
      · intro hv
        exact absurd h.symm (hv f (List.mem_cons_self f rest))
    · rw [if_neg h]
      rw [ih]
      constructor
      · intro hv e he
        rcases List.mem_cons.mp he with rfl | h2
        · exact fun hx => h hx.symm
        · exact hv e h2
      · intro hv e he
        exact hv e (List.mem_cons_of_mem f he)

/-- Lookups agree on permuted row lists with distinct keys. -/
theorem sqGetRaw_eq_of_perm {t1 t2 : Table} (hd : DistinctKeys t1) (hp : t1 ~ t2)
    (k : Str) : sqGetRaw t1 k = sqGetRaw t2 k := by
  have hd2 : DistinctKeys t2 := hp.pairwise_iff
    (fun h => Ne.symm h) |>.mp hd
  cases h1 : sqGetRaw t1 k with
  | some v =>
    rw [sqGetRaw_eq_some_iff hd k v] at h1
    exact ((sqGetRaw_eq_some_iff hd2 k v).mpr (hp.mem_iff.mp h1)).symm
  | none =>
    rw [sqGetRaw_eq_none_iff] at h1
    exact ((sqGetRaw_eq_none_iff t2 k).mpr
      (fun e he => h1 e (hp.mem_iff.mpr he))).symm

/-! ### SQLite iteration as a filter over the ordered rows -/

theorem collectRows_eq (pfx : Str) (rows : Table) :
    collectRows pfx rows =
      (rows.filter (fun e => pfx.isPrefixOf e.1)).map (fun e => (cutAtLastSep e.1, e.2)) := by
  induction rows with
  | nil => rfl
  | cons e rest ih =>
    rcases e with ⟨k, v⟩
    simp only [collectRows, List.filter_cons]
    by_cases h : pfx.isPrefixOf k
    · have h' : pfx.isPrefixOf (k, v).1 = true := h
      rw [if_pos h, h', if_pos rfl]
      simp [ih]
    · have h' : pfx.isPrefixOf (k, v).1 = false := by
        cases hx : pfx.isPrefixOf k
        · rfl
        · exact absurd hx h
      rw [if_neg h, h']
      simp [ih]

theorem sqIter_ok (tbl : Table) (reverse : Bool) (pfx : Str) :
    SqliteCollection.iter .ok tbl reverse pfx =
      ((orderedRows tbl reverse).filter (fun e => pfx.isPrefixOf e.1)).map
        (fun e => (cutAtLastSep e.1, e.2)) := by
  simp [SqliteCollection.iter, SqliteCollection.make_iter, collectRows_eq]

/-! ### Table worlds and connections -/

theorem getTable_setTable_self (w : SqWorld) (n : String) (t : Table) :
    getTable (setTable w n t) n = t := by
  induction w with
  | nil => simp [setTable, getTable, List.find?]
  | cons f rest ih =>
    simp only [setTable]
    by_cases h : f.1 = n
    · rw [if_pos h]
      simp [getTable, List.find?]
    · rw [if_neg h]
      simp only [getTable, List.find?] at ih ⊢
      have hd : (decide (f.1 = n)) = false := by simp [h]
      rw [hd]
      exact ih

theorem getTable_setTable_ne (w : SqWorld) {n1 n2 : String} (hne : n1 ≠ n2)
    (t : Table) : getTable (setTable w n1 t) n2 = getTable w n2 := by
  induction w with
  | nil =>
    have hd : (decide (n1 = n2)) = false := by simp [hne]
    simp [setTable, getTable, List.find?, hd]
  | cons f rest ih =>
    simp only [setTable]
    by_cases h : f.1 = n1
    · rw [if_pos h]
      simp only [getTable, List.find?]
      have hd1 : (decide (n1 = n2)) = false := by simp [hne]
      have hd2 : (decide (f.1 = n2)) = false := by simp [h, hne]
      rw [hd1, hd2]
    · rw [if_neg h]
      simp only [getTable, List.find?]
      cases hd : decide (f.1 = n2) with
      | true => rfl
      | false =>
        simp only [getTable, List.find?] at ih
        exact ih

/-! ## Concrete fixtures (the spec's test data) -/

def keyAA : Str := ['a', 'a']

def keyAB : Str := ['a', 'b']

def keyBC : Str := ['b', 'c']

def valA : Val := [1]

def valB : Val := [2]

def valC : Val := [3]

/-- The operation sequence building the spec's three-entry state. -/
def ops3 : List Op := [.put keyAA valA, .put keyAB valB, .put keyBC valC]

/-! ## Claims -/

/-- C3 counterexample: on the LevelDB backend, iterating the collection
holding exactly keys "aa", "ab", "bc" with `iterate(false, "a")` does NOT
yield `[("aa",A),("ab",B)]` — the iterator strips the prefix out of the
yielded keys via `replace`. -/
theorem C3_counterexample :
    LeveldbCollection.iter ⟨ldbExec ops3⟩ false ['a'] ≠
      [(keyAA, valA), (keyAB, valB)] := by decide

/-- C3 (amended): forward iteration yields exactly the entries whose
stored key starts with the prefix, in ascending stored-key order; the
SQLite backend yields the concrete sequences of the claim, while the
LevelDB backend yields the same entries but with every occurrence of the
prefix removed from each yielded key (so `iterate(false, "a")` over
"aa"/"ab" yields keys "" and "b"). -/
theorem C3_forward_prefix_filtering :
    SqliteCollection.iter .ok (sqExec ops3) false [] =
        [(keyAA, valA), (keyAB, valB), (keyBC, valC)] ∧
    SqliteCollection.iter .ok (sqExec ops3) false ['a'] =
        [(keyAA, valA), (keyAB, valB)] ∧
    SqliteCollection.iter .ok (sqExec ops3) false ['z'] = [] ∧
    LeveldbCollection.iter ⟨ldbExec ops3⟩ false [] =
        [(keyAA, valA), (keyAB, valB), (keyBC, valC)] ∧
    LeveldbCollection.iter ⟨ldbExec ops3⟩ false ['a'] =
        [(([] : Str), valA), (['b'], valB)] ∧
    LeveldbCollection.iter ⟨ldbExec ops3⟩ false ['z'] = [] ∧
    (∀ (ops : List Op) (P : Str),
        LeveldbCollection.iter ⟨ldbExec ops⟩ false P =
          ((ldbExec ops).filter (fun e => P.isPrefixOf e.1)).map
            (fun e => (removeOcc P e.1, e.2))) ∧
    (∀ (ops : List Op) (P : Str),
        SqliteCollection.iter .ok (sqExec ops) false P =
          ((sortAsc (sqExec ops)).filter (fun e => P.isPrefixOf e.1)).map
            (fun e => (cutAtLastSep e.1, e.2))) := by
  refine ⟨by decide, by decide, by decide, by decide, by decide, by decide, ?_, ?_⟩
  · intro ops P
    exact ldbIter_forward _ (sorted_ldbExec ops) P
  · intro ops P
    simpa [orderedRows] using sqIter_ok (sqExec ops) false P

/-- C4 counterexample: reverse iteration with prefix "a" over the single
stored key "aa" yields the stripped key "" rather than the stored key
"aa", so it does not yield "exactly the stored keys that start with P". -/
theorem C4_counterexample :
    LeveldbCollection.iter ⟨ldbExec [.put keyAA valA]⟩ true ['a'] ≠
      [(keyAA, valA)] := by decide

/-- C4 (amended): reverse iteration yields exactly the stored entries
whose key starts with the prefix AND sorts strictly below the sentinel
`prefix + MAX_CHAR + MAX_CHAR`, in descending stored-key order, with every
occurrence of the prefix removed from each yielded key; the sentinel is
never yielded even when it is itself a stored key the seek lands on; over
keys "aa","ab","bc", `iterate(true, "")` yields
`[("bc",C),("ab",B),("aa",A)]`. -/
theorem C4_reverse_iteration :
    (∀ (ops : List Op) (P : Str),
        LeveldbCollection.iter ⟨ldbExec ops⟩ true P =
          (((ldbExec ops).filter
              (fun e => P.isPrefixOf e.1 && ltb e.1 (sentinel P))).reverse).map
            (fun e => (removeOcc P e.1, e.2))) ∧
    LeveldbCollection.iter ⟨ldbExec [.put (sentinel ['a']) valA]⟩ true ['a'] = [] ∧
    LeveldbCollection.iter ⟨ldbExec ops3⟩ true [] =
        [(keyBC, valC), (keyAB, valB), (keyAA, valA)] ∧
    LeveldbCollection.iter ⟨ldbExec [.put keyAA valA]⟩ true ['a'] =
        [(([] : Str), valA)] := by
  refine ⟨?_, by decide, by decide, by decide⟩
  intro ops P
  exact ldbIter_reverse _ (sorted_ldbExec ops) P

/-- C5: in both backends a successful `put(K, V)` followed by `get(K)`
returns V, and after `put(K, V1); put(K, V2)` a `get(K)` returns V2 — the
most recent put fully replaces any prior value. -/
theorem C5_round_trip_last_write_wins :
    (∀ (c : LeveldbCollection) (k : Str) (v : Val),
        c.put .ok k v = .ok ⟨ldbPutRaw c.data k v⟩) ∧
    (∀ (db : LDB) (k : Str) (v : Val),
        LeveldbCollection.get .ok ⟨ldbPutRaw db k v⟩ k = .ok v) ∧
    (∀ (db : LDB) (k : Str) (v1 v2 : Val),
        LeveldbCollection.get .ok ⟨ldbPutRaw (ldbPutRaw db k v1) k v2⟩ k = .ok v2) ∧
    (∀ (tbl : Table) (k : Str) (v : Val),
        SqliteCollection.put .ok .ok tbl k v = .ok (sqPutRaw tbl k v)) ∧
    (∀ (tbl : Table) (k : Str) (v : Val),
        SqliteCollection.get .ok .ok (sqPutRaw tbl k v) k = .ok v) ∧
    (∀ (tbl : Table) (k : Str) (v1 v2 : Val),
        SqliteCollection.get .ok .ok (sqPutRaw (sqPutRaw tbl k v1) k v2) k = .ok v2) := by
  refine ⟨fun c k v => rfl, ?_, ?_, fun tbl k v => rfl, ?_, ?_⟩
  · intro db k v
    simp [LeveldbCollection.get, LeveldbCollection.generate_key, ldbGetRaw_putRaw_self]
  · intro db k v1 v2
    simp [LeveldbCollection.get, LeveldbCollection.generate_key, ldbGetRaw_putRaw_self]
  · intro tbl k v
    simp [SqliteCollection.get, sqGetRaw_putRaw_self]
  · intro tbl k v1 v2
    simp [SqliteCollection.get, sqGetRaw_putRaw_self]

/-- C9 counterexample: a failure while materializing the SQLite result set
is observationally identical to a legitimately empty sequence — `iter`
replaces the error with an empty iterator. -/
theorem C9_counterexample :
    SqliteCollection.iter (.fail "sql error") [(['x'], [7])] false [] = [] ∧
    SqliteCollection.iter .ok ([] : Table) false [] = [] :=
  ⟨rfl, rfl⟩

/-- C9 (amended): `get`/`put`/`delete` surface every backend failure as a
typed error in both backends (`CustomError` with the operation's message,
except LevelDB/SQLite `get`, which collapse read failures into
`EntryNotFound`), but the SQLite `iter` swallows any failure of
`make_iter` into the empty sequence, indistinguishable from an empty
result. -/
theorem C9_error_reporting :
    (∀ (m : String) (c : LeveldbCollection) (k : Str) (v : Val),
        c.put (.fail m) k v = .error (.CustomError ("Error putting data: " ++ m))) ∧
    (∀ (m : String) (c : LeveldbCollection) (k : Str),
        c.del (.fail m) k = .error (.CustomError ("Error deletting data: " ++ m))) ∧
    (∀ (m : String) (c : LeveldbCollection) (k : Str),
        LeveldbCollection.get (.fail m) c k = .error .EntryNotFound) ∧
    (∀ (m : String) (tbl : Table) (k : Str) (v : Val),
        SqliteCollection.put .ok (.fail m) tbl k v = .error (.CustomError "insert error")) ∧
    (∀ (m : String) (tbl : Table) (k : Str),
        SqliteCollection.del .ok (.fail m) tbl k = .error (.CustomError "delete error")) ∧
    (∀ (m : String) (tbl : Table) (k : Str),
        SqliteCollection.get .ok (.fail m) tbl k = .error .EntryNotFound) ∧
    (∀ (m : String) (tbl : Table) (reverse : Bool) (P : Str),
        SqliteCollection.iter (.fail m) tbl reverse P = []) := by
  exact ⟨fun m c k v => rfl, fun m c k => rfl, fun m c k => rfl, fun m tbl k v => rfl,
    fun m tbl k => rfl, fun m tbl k => rfl, fun m tbl r P => rfl⟩

/-- C6 counterexample: the SQLite `get` returns
`CustomError("open connection")` — not `EntryNotFound` — when taking the
connection lock fails, so `get` can surface an error kind other than
`EntryNotFound`. -/
theorem C6_counterexample :
    SqliteCollection.get (.fail "poisoned") .ok ([] : Table) ['x'] =
        .error (.CustomError "open connection") ∧
    DbError.CustomError "open connection" ≠ .EntryNotFound :=
  ⟨rfl, by decide⟩

/-- C6 (amended): the LevelDB `get` collapses absence and every read
failure into exactly `EntryNotFound`; the SQLite `get` collapses absence
and query failures into `EntryNotFound` but reports a connection-lock
failure as `CustomError("open connection")`. -/
theorem C6_get_error_collapse :
    (∀ (ro : BackendOutcome) (c : LeveldbCollection) (k : Str) (err : DbError),
        LeveldbCollection.get ro c k = .error err → err = .EntryNotFound) ∧
    (∀ (qo : BackendOutcome) (tbl : Table) (k : Str) (err : DbError),
        SqliteCollection.get .ok qo tbl k = .error err → err = .EntryNotFound) ∧
    (∀ (m : String) (qo : BackendOutcome) (tbl : Table) (k : Str),
        SqliteCollection.get (.fail m) qo tbl k =
          .error (.CustomError "open connection")) := by
  refine ⟨?_, ?_, fun m qo tbl k => rfl⟩
  · intro ro c k err h
    cases ro with
    | fail m =>
      simp [LeveldbCollection.get, LeveldbCollection.generate_key] at h
      exact h.symm
    | ok =>
      simp only [LeveldbCollection.get, LeveldbCollection.generate_key] at h
      cases hg : ldbGetRaw c.data k with
      | some v => rw [hg] at h; exact Except.noConfusion h
      | none =>
        rw [hg] at h
        exact (Except.error.inj h).symm
  · intro qo tbl k err h
    cases qo with
    | fail m =>
      simp [SqliteCollection.get] at h
      exact h.symm
    | ok =>
      simp only [SqliteCollection.get] at h
      cases hg : sqGetRaw tbl k with
      | some v => rw [hg] at h; exact Except.noConfusion h
      | none =>
        rw [hg] at h
        exact (Except.error.inj h).symm

/-- C6 witness: the amended collapse facts at concrete inputs — a failing
LevelDB read on a non-empty store reports `EntryNotFound`, and a poisoned
SQLite lock reports `CustomError("open connection")`. -/
theorem C6_get_error_collapse_witness :
    DbError.EntryNotFound = DbError.EntryNotFound ∧
    SqliteCollection.get (.fail "lock poisoned") .ok ([] : Table) ['x'] =
      .error (.CustomError "open connection") :=
  ⟨C6_get_error_collapse.1 (.fail "io error") ⟨[(['x'], [7])]⟩ ['x'] .EntryNotFound rfl,
   C6_get_error_collapse.2.2 "lock poisoned" .ok [] ['x']⟩

/-! ### The rightmost-separator cut -/

theorem suffixFromLastSep_eq_none_iff (k : Str) :
    suffixFromLastSep k = none ↔ maxChar ∉ k := by
  induction k with
  | nil => simp [suffixFromLastSep]
  | cons c rest ih =>
    simp only [suffixFromLastSep]
    cases h : suffixFromLastSep rest with
    | some t =>
      constructor
      · intro hx; exact Option.noConfusion hx
      · intro hx
        have hnm : maxChar ∉ rest := fun hm => hx (List.mem_cons_of_mem c hm)
        rw [ih.mpr hnm] at h
        exact Option.noConfusion h
    | none =>
      by_cases hc : c = maxChar
      · rw [if_pos hc]
        constructor
        · intro hx; exact Option.noConfusion hx
        · intro hx
          exact absurd (by rw [hc]; exact List.mem_cons_self _ _) hx
      · rw [if_neg hc]
        constructor
        · intro _ hm
          rcases List.mem_cons.mp hm with h1 | h1
          · exact hc h1.symm
          · exact (ih.mp h) h1
        · intro _; rfl

theorem suffixFromLastSep_spec (k : Str) (hm : maxChar ∈ k) :
    ∃ pre suf, k = pre ++ maxChar :: suf ∧ maxChar ∉ suf ∧
      suffixFromLastSep k = some (maxChar :: suf) := by
  induction k with
  | nil => simp at hm
  | cons c rest ih =>
    simp only [suffixFromLastSep]
    cases h : suffixFromLastSep rest with
    | some t =>
      have hrm : maxChar ∈ rest := by
        by_contra hx
        rw [(suffixFromLastSep_eq_none_iff rest).mpr hx] at h
        exact Option.noConfusion h
      obtain ⟨pre, suf, h1, h2, h3⟩ := ih hrm
      rw [h3] at h
      have ht : t = maxChar :: suf := (Option.some_inj.mp h).symm
      refine ⟨c :: pre, suf, ?_, h2, ?_⟩
      · rw [h1]; rfl
      · rw [ht]
    | none =>
      have hrm : maxChar ∉ rest := (suffixFromLastSep_eq_none_iff rest).mp h
      have hc : c = maxChar := by
        rcases List.mem_cons.mp hm with h1 | h1
        · exact h1.symm
        · exact absurd h1 hrm
      rw [if_pos hc]
      exact ⟨[], rest, by rw [hc]; rfl, hrm, by rw [hc]⟩

theorem cutAtLastSep_of_not_mem {k : Str} (h : maxChar ∉ k) : cutAtLastSep k = k := by
  unfold cutAtLastSep
  rw [(suffixFromLastSep_eq_none_iff k).mpr h]
  rfl

theorem cutAtLastSep_of_mem {k : Str} (h : maxChar ∈ k) :
    ∃ pre suf, k = pre ++ maxChar :: suf ∧ maxChar ∉ suf ∧
      cutAtLastSep k = maxChar :: suf := by
  obtain ⟨pre, suf, h1, h2, h3⟩ := suffixFromLastSep_spec k h
  refine ⟨pre, suf, h1, h2, ?_⟩
  unfold cutAtLastSep
  rw [h3]
  rfl

/-- C7 counterexample: a stored key containing the separator yields the
suffix *including* the separator (`key[rfind..]` starts at the
separator's byte index), not the substring strictly after it. -/
theorem C7_counterexample :
    SqliteCollection.iter .ok [(['a', maxChar, 'b'], [1])] false [] =
        [([maxChar, 'b'], [1])] ∧
    ([maxChar, 'b'] : Str) ≠ ['b'] :=
  ⟨by decide, by decide⟩

/-- C7 (amended): every key yielded by SQLite iteration is
`key[key.rfind(char::MAX).unwrap_or(0)..]`: for keys containing the
separator this is the suffix starting AT (and including) the rightmost
separator; for keys without the separator it is the full key. -/
theorem C7_suffix_extraction :
    (∀ (tbl : Table) (reverse : Bool) (P : Str),
        SqliteCollection.iter .ok tbl reverse P =
          ((orderedRows tbl reverse).filter (fun e => P.isPrefixOf e.1)).map
            (fun e => (cutAtLastSep e.1, e.2))) ∧
    (∀ k : Str, maxChar ∉ k → cutAtLastSep k = k) ∧
    (∀ k : Str, maxChar ∈ k →
        ∃ pre suf, k = pre ++ maxChar :: suf ∧ maxChar ∉ suf ∧
          cutAtLastSep k = maxChar :: suf) :=
  ⟨sqIter_ok, fun _ h => cutAtLastSep_of_not_mem h, fun _ h => cutAtLastSep_of_mem h⟩

/-- C7 witness: the amended cut at concrete keys — a separator-free key is
yielded whole, and "a␟b" (with ␟ the separator) is cut to the suffix that
starts with the separator. -/
theorem C7_suffix_extraction_witness :
    cutAtLastSep ['b'] = ['b'] ∧
    (∃ pre suf, (['a', maxChar, 'b'] : Str) = pre ++ maxChar :: suf ∧
        maxChar ∉ suf ∧ cutAtLastSep ['a', maxChar, 'b'] = maxChar :: suf) :=
  ⟨C7_suffix_extraction.2.1 ['b'] (by decide),
   C7_suffix_extraction.2.2 ['a', maxChar, 'b'] (by decide)⟩

/-! ### Multiplicity of a freshly written row -/

theorem countP_key_sqPutRaw {tbl : Table} (hd : DistinctKeys tbl) (k : Str) (v : Val) :
    (sqPutRaw tbl k v).countP (fun e => decide (e.1 = k)) = 1 := by
  rw [(sqPutRaw_perm hd k v).countP_eq]
  have h0 : (sqDelRaw tbl k).countP (fun e => decide (e.1 = k)) = 0 := by
    rw [List.countP_eq_zero]
    intro e he
    have hm := List.mem_filter.mp he
    simp only [decide_eq_true_eq]
    simpa using hm.2
  simp [List.countP_cons, h0]

/-- C1 counterexample: on the LevelDB backend, writing key "x" into the
collection "first" created by a manager over an empty store produces the
shared store [("x",[7])]; the collection "second" of the same (shared)
store then returns the entry from `get("x")` and yields it when iterating
with prefix "" — the entry is visible through the other collection. -/
theorem C1_counterexample :
    (LeveldbManager.create_collection ⟨[]⟩ "first").put .ok ['x'] [7] =
        .ok ⟨[(['x'], [7])]⟩ ∧
    ((LeveldbManager.mk [(['x'], [7])]).create_collection "second").get .ok ['x'] =
        .ok [7] ∧
    ((LeveldbManager.mk [(['x'], [7])]).create_collection "second").iter false [] =
        [(['x'], [7])] :=
  ⟨rfl, rfl, by decide⟩

/-- C1 (amended): the two backends differ.  LevelDB: `create_collection`
ignores the collection name entirely, so every collection of one manager
is the same view of one shared keyspace and isolation fails.  SQLite:
distinct collection names map to distinct tables of the shared file
database, so a write into table n1 changes nothing observable through
table n2 ≠ n1; and within the written collection the new row occurs
exactly once among the rows whose key matches any prefix the key
satisfies, contributing exactly one yielded entry (in cut form). -/
theorem C1_collection_isolation :
    (∀ (m : LeveldbManager) (n1 n2 : String),
        m.create_collection n1 = m.create_collection n2) ∧
    (∀ (st : SqNodeState) (n1 n2 : String) (key k : Str) (v : Val), n1 ≠ n2 →
        SqHandle.get ⟨.file, n2⟩ (SqHandle.put ⟨.file, n1⟩ st k v) key =
          SqHandle.get ⟨.file, n2⟩ st key) ∧
    (∀ (st : SqNodeState) (n1 n2 : String) (reverse : Bool) (P k : Str) (v : Val),
        n1 ≠ n2 →
        SqHandle.iter ⟨.file, n2⟩ (SqHandle.put ⟨.file, n1⟩ st k v) reverse P =
          SqHandle.iter ⟨.file, n2⟩ st reverse P) ∧
    (∀ (ops : List Op) (k : Str) (v : Val) (P : Str), P.isPrefixOf k = true →
        ((sortAsc (sqPutRaw (sqExec ops) k v)).filter
            (fun e => P.isPrefixOf e.1)).countP (fun e => decide (e.1 = k)) = 1 ∧
        (cutAtLastSep k, v) ∈
          SqliteCollection.iter .ok (sqPutRaw (sqExec ops) k v) false P) := by
  refine ⟨fun m n1 n2 => rfl, ?_, ?_, ?_⟩
  · intro st n1 n2 key k v hne
    simp only [SqHandle.get, SqHandle.put, SqNodeState.resolve, SqNodeState.update]
    rw [getTable_setTable_ne _ hne]
  · intro st n1 n2 reverse P k v hne
    simp only [SqHandle.iter, SqHandle.put, SqNodeState.resolve, SqNodeState.update]
    rw [getTable_setTable_ne _ hne]
  · intro ops k v P hP
    have hd : DistinctKeys (sqPutRaw (sqExec ops) k v) :=
      distinct_sqPutRaw (distinct_sqExec ops) k v
    constructor
    · rw [List.countP_filter]
      have hc : ∀ e ∈ sortAsc (sqPutRaw (sqExec ops) k v),
          (decide (e.1 = k) && P.isPrefixOf e.1) = true ↔ decide (e.1 = k) = true := by
        intro e _
        constructor
        · intro hx
          have hx' : decide (e.1 = k) = true ∧ P.isPrefixOf e.1 = true := by
            simpa using hx
          exact hx'.1
        · intro hx
          have he1 : e.1 = k := of_decide_eq_true hx
          have hpe : P.isPrefixOf e.1 = true := by rw [he1]; exact hP
          simp [hx, hpe]
      rw [List.countP_congr hc, (perm_sortAsc _).countP_eq]
      exact countP_key_sqPutRaw (distinct_sqExec ops) k v
    · have hmem : (k, v) ∈ sqPutRaw (sqExec ops) k v :=
        (sqGetRaw_eq_some_iff hd k v).mp (sqGetRaw_putRaw_self _ k v)
      have hmem2 : (k, v) ∈ sortAsc (sqPutRaw (sqExec ops) k v) :=
        (perm_sortAsc _).mem_iff.mpr hmem
      have hmem3 : (k, v) ∈ (sortAsc (sqPutRaw (sqExec ops) k v)).filter
          (fun e => P.isPrefixOf e.1) :=
        List.mem_filter.mpr ⟨hmem2, hP⟩
      rw [sqIter_ok]
      exact List.mem_map.mpr ⟨(k, v), hmem3, rfl⟩

/-- C1 witness: the amended isolation facts at concrete inputs — a write
into file-backed table "first" is invisible through "second", and the row
written under key "x" occurs exactly once among the matching rows. -/
theorem C1_collection_isolation_witness :
    SqHandle.get ⟨.file, "second"⟩
        (SqHandle.put ⟨.file, "first"⟩ ⟨[], []⟩ ['x'] [7]) ['x'] =
      SqHandle.get ⟨.file, "second"⟩ ⟨[], []⟩ ['x'] ∧
    ((sortAsc (sqPutRaw (sqExec []) ['x'] [7])).filter
        (fun e => ([] : Str).isPrefixOf e.1)).countP
      (fun e => decide (e.1 = ['x'])) = 1 :=
  ⟨C1_collection_isolation.2.1 ⟨[], []⟩ "first" "second" ['x'] ['x'] [7] (by decide),
   (C1_collection_isolation.2.2.2 [] ['x'] [7] [] (by decide)).1⟩

/-! ### Keys below the sentinel -/

/-- The key an operation touches. -/
def opKey : Op → Str
  | .put k _ => k
  | .del k => k

/-- All keys used by a sequence of operations consist of characters
strictly below `char::MAX`. -/
def CleanOps (ops : List Op) : Prop := ∀ o ∈ ops, ∀ c ∈ opKey o, c < maxChar

instance : DecidablePred CleanOps := fun ops => by
  unfold CleanOps
  infer_instance

theorem clean_keys_exec {ops : List Op} (h : CleanOps ops) :
    ∀ e ∈ ldbExec ops, ∀ c ∈ e.1, c < maxChar := by
  have hgen : ∀ (l : List Op) (db : LDB), (∀ o ∈ l, ∀ c ∈ opKey o, c < maxChar) →
      (∀ e ∈ db, ∀ c ∈ e.1, c < maxChar) →
      ∀ e ∈ l.foldl ldbApply db, ∀ c ∈ e.1, c < maxChar := by
    intro l
    induction l with
    | nil => intro db _ hdb; exact hdb
    | cons o rest ih =>
      intro db hl hdb
      refine ih (ldbApply db o) (fun o2 ho2 => hl o2 (List.mem_cons_of_mem o ho2)) ?_
      intro e he
      cases o with
      | put k v =>
        rcases mem_ldbPutRaw he with h1 | h1
        · exact hdb e h1
        · rw [h1]
          exact hl (.put k v) (List.mem_cons_self _ _)
      | del k =>
        exact hdb e (List.mem_of_mem_filter he)
  exact hgen ops [] h (by intro e he; simp at he)

theorem ltb_append_same (l a b : Str) : ltb (l ++ a) (l ++ b) = ltb a b := by
  induction l with
  | nil => rfl
  | cons c rest ih => simp [ltb, ih]

theorem ltb_sentinel_of_clean {k P : Str} (hclean : ∀ c ∈ k, c < maxChar)
    (hp : P.isPrefixOf k = true) : ltb k (sentinel P) = true := by
  obtain ⟨t, rfl⟩ := List.isPrefixOf_iff_prefix.mp hp
  rw [sentinel, ltb_append_same]
  cases t with
  | nil => rfl
  | cons c rest =>
    have hc : c < maxChar := hclean c (by simp)
    simp [ltb, hc]

/-- C2 counterexample: the same two puts followed by the same
`iterate(false, "a")` yield different (key, value) sequences on the two
backends — LevelDB strips the prefix out of the yielded keys, SQLite does
not. -/
theorem C2_counterexample :
    LeveldbCollection.iter ⟨ldbExec [.put keyAA valA, .put keyAB valB]⟩ false ['a'] ≠
      SqliteCollection.iter .ok (sqExec [.put keyAA valA, .put keyAB valB])
        false ['a'] := by decide

/-- C2 (amended): under identical successful operation sequences the two
backends agree on every `get` (including collapsing absence to
`EntryNotFound`), and forward iteration yields identical value sequences
in identical order; reverse iteration yields identical value sequences
whenever all keys consist of characters below `char::MAX`; but the yielded
key strings differ in general (see the counterexample): LevelDB strips
every occurrence of the prefix, SQLite cuts from the rightmost
separator. -/
theorem C2_cross_backend_equivalence :
    (∀ (ops : List Op) (k : Str),
        LeveldbCollection.get .ok ⟨ldbExec ops⟩ k =
          SqliteCollection.get .ok .ok (sqExec ops) k) ∧
    (∀ (ops : List Op) (P : Str),
        (LeveldbCollection.iter ⟨ldbExec ops⟩ false P).map Prod.snd =
          (SqliteCollection.iter .ok (sqExec ops) false P).map Prod.snd) ∧
    (∀ (ops : List Op) (P : Str), CleanOps ops →
        (LeveldbCollection.iter ⟨ldbExec ops⟩ true P).map Prod.snd =
          (SqliteCollection.iter .ok (sqExec ops) true P).map Prod.snd) := by
  have hraw : ∀ (ops : List Op) (k : Str),
      ldbGetRaw (ldbExec ops) k = sqGetRaw (sqExec ops) k := by
    intro ops k
    rw [ldbGetRaw_eq_sqGetRaw, ← sortAsc_sqExec_eq_ldbExec]
    exact sqGetRaw_eq_of_perm
      (DistinctKeys.of_sorted (sorted_sortAsc (distinct_sqExec ops)))
      (perm_sortAsc _) k
  refine ⟨?_, ?_, ?_⟩
  · intro ops k
    cases hx : sqGetRaw (sqExec ops) k with
    | some v =>
      simp [LeveldbCollection.get, SqliteCollection.get, LeveldbCollection.generate_key,
        hraw ops k, hx]
    | none =>
      simp [LeveldbCollection.get, SqliteCollection.get, LeveldbCollection.generate_key,
        hraw ops k, hx]
  · intro ops P
    rw [ldbIter_forward _ (sorted_ldbExec ops) P, sqIter_ok]
    have horder : orderedRows (sqExec ops) false = ldbExec ops := by
      show sortAsc (sqExec ops) = ldbExec ops
      exact sortAsc_sqExec_eq_ldbExec ops
    rw [horder, List.map_map, List.map_map]
    rfl
  · intro ops P hclean
    rw [ldbIter_reverse _ (sorted_ldbExec ops) P, sqIter_ok]
    have hfc : (ldbExec ops).filter (fun e => P.isPrefixOf e.1 && ltb e.1 (sentinel P)) =
        (ldbExec ops).filter (fun e => P.isPrefixOf e.1) := by
      refine List.filter_congr ?_
      intro e he
      by_cases hp : P.isPrefixOf e.1 = true
      · rw [hp, ltb_sentinel_of_clean (clean_keys_exec hclean e he) hp]
        rfl
      · have hp' : P.isPrefixOf e.1 = false := by
          cases hx : P.isPrefixOf e.1
          · rfl
          · exact absurd hx hp
        rw [hp']
        rfl
    have horder : orderedRows (sqExec ops) true = (ldbExec ops).reverse := by
      show (sortAsc (sqExec ops)).reverse = (ldbExec ops).reverse
      rw [sortAsc_sqExec_eq_ldbExec]
    rw [hfc, horder, List.filter_reverse, List.map_map, List.map_map]
    rfl

/-- C2 witness: the amended cross-backend agreement at a concrete input —
over the three-entry state, reverse iteration with prefix "" yields the
same value sequence on both backends. -/
theorem C2_cross_backend_equivalence_witness :
    (LeveldbCollection.iter ⟨ldbExec ops3⟩ true []).map Prod.snd =
      (SqliteCollection.iter .ok (sqExec ops3) true []).map Prod.snd :=
  C2_cross_backend_equivalence.2.2 ops3 [] (by decide)

/-- The default in-memory manager's first "c" collection handle and the
resulting state. -/
def memStep1 : SqHandle × SqNodeState :=
  SqliteManager.create_collection ":memory:" ⟨[], []⟩ "c"

/-- A second "c" collection from the same default manager. -/
def memStep2 : SqHandle × SqNodeState :=
  SqliteManager.create_collection ":memory:" memStep1.2 "c"

/-- C8 counterexample: with the default in-memory manager, each
`create_collection` opens a fresh private database, so a put through one
handle of collection "c" is visible through that handle but NOT through a
second handle of the same collection name from the same manager. -/
theorem C8_counterexample :
    (memStep1.1).get ((memStep1.1).put memStep2.2 ['x'] [7]) ['x'] = .ok [7] ∧
    (memStep2.1).get ((memStep1.1).put memStep2.2 ['x'] [7]) ['x'] =
      .error .EntryNotFound :=
  ⟨rfl, rfl⟩

/-- C8 (amended): `SqliteManager` stores only a path and every
`create_collection` opens a new connection to it.  For a file path all
those connections attach to the same physical database, so a write through
one handle is observable through any handle of the same collection name;
for the default `":memory:"` manager every connection is its own private
database, so handles of the same name share nothing. -/
theorem C8_shared_connection :
    (∀ (st : SqNodeState) (path n : String), path ≠ ":memory:" →
        (SqliteManager.create_collection path st n).1 = ⟨.file, n⟩) ∧
    (∀ (st : SqNodeState) (n : String) (k : Str) (v : Val),
        SqHandle.get ⟨.file, n⟩ (SqHandle.put ⟨.file, n⟩ st k v) k = .ok v) ∧
    (∀ (st : SqNodeState) (n : String) (k : Str) (v : Val),
        ((SqliteManager.create_collection ":memory:"
            (SqliteManager.create_collection ":memory:" st n).2 n).1).get
          (((SqliteManager.create_collection ":memory:" st n).1).put
            ((SqliteManager.create_collection ":memory:"
              (SqliteManager.create_collection ":memory:" st n).2 n).2) k v) k =
        .error .EntryNotFound) := by
  refine ⟨?_, ?_, ?_⟩
  · intro st path n h
    simp [SqliteManager.create_collection, h]
  · intro st n k v
    simp only [SqHandle.get, SqHandle.put, SqNodeState.resolve, SqNodeState.update]
    rw [getTable_setTable_self]
    simp [SqliteCollection.get, sqGetRaw_putRaw_self]
  · intro st n k v
    simp only [SqliteManager.create_collection, if_pos]
    simp only [SqHandle.put, SqHandle.get, SqNodeState.resolve, SqNodeState.update]
    rw [List.getElem?_set_ne (by simp)]
    rw [List.getElem?_concat_length]
    simp [createTableIfAbsent, getTable, List.find?, SqliteCollection.get, sqGetRaw]

/-- C8 witness: the amended sharing facts at concrete inputs — a
file-backed manager hands out handles on the shared file database, and a
write through one such handle is readable back through an equal handle. -/
theorem C8_shared_connection_witness :
    (SqliteManager.create_collection "node.sqlite" ⟨[], []⟩ "events").1 =
      ⟨.file, "events"⟩ ∧
    SqHandle.get ⟨.file, "events"⟩
        (SqHandle.put ⟨.file, "events"⟩ ⟨[], []⟩ ['x'] [7]) ['x'] = .ok [7] :=
  ⟨C8_shared_connection.1 ⟨[], []⟩ "node.sqlite" "events" (by decide),
   C8_shared_connection.2.1 ⟨[], []⟩ "events" ['x'] [7]⟩

/-- C10: every key yielded by LevelDB iteration (forward or reverse) with
prefix P is the stored key with every (leftmost, non-overlapping)
occurrence of P removed via string `replace`, not only the leading one; in
particular iterating with prefix "a" over stored key "aa" yields the key
"" rather than "a". -/
theorem C10_replace_strips_every_occurrence :
    (∀ (ops : List Op) (P : Str),
        LeveldbCollection.iter ⟨ldbExec ops⟩ false P =
          ((ldbExec ops).filter (fun e => P.isPrefixOf e.1)).map
            (fun e => (removeOcc P e.1, e.2))) ∧
    (∀ (ops : List Op) (P : Str),
        LeveldbCollection.iter ⟨ldbExec ops⟩ true P =
          (((ldbExec ops).filter
              (fun e => P.isPrefixOf e.1 && ltb e.1 (sentinel P))).reverse).map
            (fun e => (removeOcc P e.1, e.2))) ∧
    LeveldbCollection.iter ⟨ldbExec [.put keyAA valA]⟩ false ['a'] =
        [(([] : Str), valA)] ∧
    removeOcc ['a'] keyAA = [] ∧ removeOcc ['a'] keyAA ≠ ['a'] := by
  refine ⟨?_, ?_, by decide, by decide, by decide⟩
  · intro ops P
    exact ldbIter_forward _ (sorted_ldbExec ops) P
  · intro ops P
    exact ldbIter_reverse _ (sorted_ldbExec ops) P

end KoreNode
